import Mathlib

/-!
Verification development for a scalar reverse-mode automatic-differentiation
engine (a `Value` class with overloaded arithmetic building a dynamic DAG, a
depth-first topological `backward` pass, and a `Neuron`/`Layer`/`MLP` stack on
top).

Embedding notes.  Python `Value` objects are mutable heap objects identified by
reference; we embed the heap as an arena `List (Value R)` in creation order, a
node's identity being its index.  Every operator appends new nodes at the end,
so operand indices are always strictly below the index of the node they feed —
this is the acyclicity invariant `WF`.  The per-object mutable `grad` field is
embedded as explicit state `Grads R = ℕ → R` threaded through the backward
pass; `grad` is `0.0` at creation, so a freshly built graph has grad state
`fun k => 0`.  The `_backward` closure stored by each constructor is recovered
by dispatch on the node's op tag (`nodeBackward`), transcribing each closure
body; `_prev = set(_children)` is recovered by `Op.prev` (Python's `set`
de-duplicates by identity, hence the `if a = b` collapse).  Numbers are
embedded as an arbitrary `Field R` (rationals instantiate it for concrete
computation, reals for the analytic facts about `tanh`); Python float
arithmetic errors (`ZeroDivisionError`, the `assert` in `__pow__`, `TypeError`
for a missing reflected method) are embedded with `Except`.
-/

namespace Micrograd

/-- The operation tag of a node together with the identities (arena indices) of
its operands: the `_children`/`_op` data of a `Value`, from which `_prev` and
the `_backward` closure are derived.  `pow` stores the plain numeric exponent
(an integer in this embedding; the exponent is a number and never a node). -/
inductive Op where
  | leaf
  | add (a b : ℕ)
  | mul (a b : ℕ)
  | pow (a : ℕ) (e : ℤ)
  | tanh (a : ℕ)
  | exp (a : ℕ)
deriving DecidableEq, Repr

/-- One scalar graph node: `Value.__init__` stores `data`, the operand record
(here the tag `op`), `grad = 0.0` (kept as external state), and a `_backward`
closure (recovered from `op` by `nodeBackward`). -/
structure Value (R : Type) where
  data : R
  op : Op
deriving DecidableEq, Repr

instance {R : Type} [Zero R] : Inhabited (Value R) := ⟨0, Op.leaf⟩

/-- The arena of all `Value` objects created so far, in creation order. -/
abbrev Graph (R : Type) := List (Value R)

/-- `self._prev = set(_children)`: the distinct operand identities of a node.
Python's `set` keys off object identity, so two equal-valued but distinct
nodes stay distinct, while a repeated identical operand (as in `a * a`)
collapses to a single element. -/
def Op.prev : Op → List ℕ
  | .leaf => []
  | .add a b => if a = b then [a] else [a, b]
  | .mul a b => if a = b then [a] else [a, b]
  | .pow a _ => [a]
  | .tanh a => [a]
  | .exp a => [a]

variable {R : Type}

/-- Field access `v.data` through a node's identity (total on the arena;
dangling identities never arise from the constructors). -/
def dataAt [Zero R] (g : Graph R) (i : ℕ) : R :=
  (g.getD i default).data

/-- The op tag stored at an identity. -/
def opAt [Zero R] (g : Graph R) (i : ℕ) : Op :=
  (g.getD i default).op

/-- Well-formedness of the arena: every node's operands were created strictly
before it.  The forward constructors guarantee this; it is the acyclicity
invariant of the computation graph. -/
def WF [Zero R] (g : Graph R) : Prop :=
  ∀ i ∈ List.range g.length, ∀ c ∈ (opAt g i).prev, c < i

instance [Zero R] (g : Graph R) : Decidable (WF g) := by
  unfold WF; infer_instance

/-! ## The operator layer (graph construction)

Each constructor mirrors one method of the Python class: it appends the new
node and returns the extended arena together with the new node's identity.  A
plain number in operand position is promoted to a constant leaf node first
(`other if isinstance(other, Value) else Value(other)`). -/

/-- An argument that is either an existing node or a plain number
(duck-typed "number or Value" at every operator's boundary). -/
inductive Arg (R : Type) where
  | node (i : ℕ)
  | num (x : R)

/-- The forward value an argument denotes. -/
def Arg.value [Zero R] (g : Graph R) : Arg R → R
  | .node i => dataAt g i
  | .num x => x

/-- Python errors that the engine can raise. -/
inductive PyErr where
  | assertionError
  | zeroDivisionError
  | typeError
deriving DecidableEq, Repr

/-- `Value(data)`: create a fresh leaf node (empty `_children`, no-op
backward rule, `grad = 0`). -/
def Value.mk' (g : Graph R) (x : R) : Graph R × ℕ :=
  (g ++ [⟨x, Op.leaf⟩], g.length)

/-- Promotion of a duck-typed operand: an existing node is used as is, a
plain number is wrapped as a constant leaf. -/
def promote (g : Graph R) : Arg R → Graph R × ℕ
  | .node i => (g, i)
  | .num x => Value.mk' g x

/-- `__add__`: promote, then `out = Value(self.data + other.data, (self, other), '+')`. -/
def Value.add [Field R] (g : Graph R) (i : ℕ) (other : Arg R) : Graph R × ℕ :=
  let p := promote g other
  (p.1 ++ [⟨dataAt p.1 i + dataAt p.1 p.2, Op.add i p.2⟩], p.1.length)

/-- `__mul__`: promote, then `out = Value(self.data * other.data, (self, other), '*')`. -/
def Value.mul [Field R] (g : Graph R) (i : ℕ) (other : Arg R) : Graph R × ℕ :=
  let p := promote g other
  (p.1 ++ [⟨dataAt p.1 i * dataAt p.1 p.2, Op.mul i p.2⟩], p.1.length)

/-- The exponent argument of `__pow__` as the Python caller supplies it:
either a plain number or (erroneously) a node. -/
inductive PowArg (R : Type) where
  | num (e : ℤ)
  | node (i : ℕ)

/-- Python's numeric `x ** e` for a float base and integer exponent: raises
`ZeroDivisionError` when `0.0` is raised to a negative power, otherwise the
mathematical power. -/
def pyPow [Field R] [DecidableEq R] (x : R) (e : ℤ) : Except PyErr R :=
  if x = 0 ∧ e < 0 then .error .zeroDivisionError else .ok (x ^ e)

/-- `__pow__`: `assert isinstance(other, (int, float))` fails fast on a
node-typed exponent before anything is built; otherwise the forward value
`self.data ** other` is computed (which itself can raise) and the node is
appended. -/
def Value.pow [Field R] [DecidableEq R] (g : Graph R) (i : ℕ) (other : PowArg R) :
    Except PyErr (Graph R × ℕ) :=
  match other with
  | .node _ => .error .assertionError
  | .num e => do
      let v ← pyPow (dataAt g i) e
      .ok (g ++ [⟨v, Op.pow i e⟩], g.length)

/-- `__neg__`: `self * -1`. -/
def Value.neg [Field R] (g : Graph R) (i : ℕ) : Graph R × ℕ :=
  Value.mul g i (.num (-1))

/-- `__sub__`: `self + (-other)`.  When `other` is a plain number the
negation happens in plain float arithmetic; when it is a node it goes
through `__neg__`. -/
def Value.sub [Field R] (g : Graph R) (i : ℕ) (other : Arg R) :
    Graph R × ℕ :=
  match other with
  | .num x => Value.add g i (.num (-x))
  | .node j =>
      let p := Value.neg g j
      Value.add p.1 i (.node p.2)

/-- `__truediv__`: `self * other**-1`.  When `other` is a plain number the
`**-1` is plain float arithmetic (raising `ZeroDivisionError` on zero); when
it is a node it builds a `pow` node (same error on a zero value). -/
def Value.truediv [Field R] [DecidableEq R] (g : Graph R) (i : ℕ) (other : Arg R) :
    Except PyErr (Graph R × ℕ) :=
  match other with
  | .num x =>
      if x = 0 then .error .zeroDivisionError
      else .ok (Value.mul g i (.num (x ^ (-1 : ℤ))))
  | .node j => do
      let p ← Value.pow g j (.num (-1))
      .ok (Value.mul p.1 i (.node p.2))

/-- `__radd__`: `self + other` (the reflected form delegates to the primary). -/
def Value.radd [Field R] (g : Graph R) (x : R) (i : ℕ) : Graph R × ℕ :=
  Value.add g i (.num x)

/-- `__rmul__`: `self * other` (the reflected form delegates to the primary). -/
def Value.rmul [Field R] (g : Graph R) (x : R) (i : ℕ) : Graph R × ℕ :=
  Value.mul g i (.num x)

/-- `tanh`: `t = (exp(2x)-1)/(exp(2x)+1)`, one operand, the computed `t`
captured by the backward closure.  `math.exp` is passed in as `expf`
(instantiated with the real exponential where analytic facts are needed). -/
def Value.tanh [Field R] (expf : R → R) (g : Graph R) (i : ℕ) : Graph R × ℕ :=
  let x := dataAt g i
  let t := (expf (2 * x) - 1) / (expf (2 * x) + 1)
  (g ++ [⟨t, Op.tanh i⟩], g.length)

/-- `exp`: `out = Value(math.exp(x), (self,), 'exp')`. -/
def Value.exp [Zero R] (expf : R → R) (g : Graph R) (i : ℕ) : Graph R × ℕ :=
  (g ++ [⟨expf (dataAt g i), Op.exp i⟩], g.length)

/-- A Python binary operator applied as `number op value` resolves through the
reflected method of the class; only `__radd__` and `__rmul__` are defined, so
subtraction and division with the number on the left raise `TypeError`. -/
inductive BinOp where
  | add
  | mul
  | sub
  | div
deriving DecidableEq, Repr

/-- Dispatch of `x op a` for a plain number `x` and node `a`: the float's own
method returns `NotImplemented` against a `Value`, Python falls back to the
class's reflected method, and the class defines only `__radd__` and
`__rmul__`. -/
def numOpValue [Field R] (g : Graph R) (op : BinOp) (x : R) (i : ℕ) :
    Except PyErr (Graph R × ℕ) :=
  match op with
  | .add => .ok (Value.radd g x i)
  | .mul => .ok (Value.rmul g x i)
  | .sub => .error .typeError
  | .div => .error .typeError

/-! ## The backward pass -/

/-- The mutable state of `backward`'s first phase: the ordering `topo` being
built and the `visited` set (a list queried by membership; identities are
indices, so membership is exactly Python's identity-keyed set lookup). -/
structure TopoSt where
  topo : List ℕ
  visited : List ℕ
deriving DecidableEq, Repr

/-- `build_topo(v)`: if `v` is unvisited, mark it visited, recurse into every
operand, then append `v` to the ordering.  The `c < v` test on each recursive
call is the termination measure of the embedding; on a well-formed arena every
operand identity is strictly below its node's, so the test is always true and
the function is exactly the Python recursion. -/
def build_topo [Zero R] (g : Graph R) (v : ℕ) (s : TopoSt) : TopoSt :=
  if v ∈ s.visited then s
  else
    let s1 : TopoSt := ⟨s.topo, v :: s.visited⟩
    let s2 := ((opAt g v).prev).foldl
      (fun t c => if h : c < v then build_topo g c t else t) s1
    ⟨s2.topo ++ [v], s2.visited⟩
termination_by v
decreasing_by exact h

/-- `gr.bump i d` is `node_i.grad += d` on the gradient state. -/
def bump [Add R] (gr : ℕ → R) (i : ℕ) (d : R) : ℕ → R :=
  fun k => if k = i then gr i + d else gr k

/-- `node._backward()`: the closure stored by the constructor that produced
node `m`, transcribed per operation.  Each `+=` reads the state left by the
previous one, exactly as the Python statements execute in order; `out.grad`
is `gr m`, and captured forward values are read from the arena (`data` is
never mutated during a backward pass). -/
def nodeBackward [Field R] (g : Graph R) (m : ℕ) (gr : ℕ → R) : ℕ → R :=
  match opAt g m with
  | .leaf => gr
  | .add a b =>
      let gr1 := bump gr a (1 * gr m)
      bump gr1 b (1 * gr1 m)
  | .mul a b =>
      let gr1 := bump gr a (dataAt g b * gr m)
      bump gr1 b (dataAt g a * gr1 m)
  | .pow a e => bump gr a ((e : R) * dataAt g a ^ (e - 1) * gr m)
  | .tanh a => bump gr a ((1 - dataAt g m ^ 2) * gr m)
  | .exp a => bump gr a (dataAt g m * gr m)

/-- The replay loop of `backward`: `for node in reversed(topo): node._backward()`. -/
def replay [Field R] (g : Graph R) (topo : List ℕ) (gr : ℕ → R) : ℕ → R :=
  topo.reverse.foldl (fun grr m => nodeBackward g m grr) gr

/-- `backward(root)` on gradient state `gr0`: build the ordering by
depth-first search from the root, overwrite the root's gradient with `1.0`,
then replay every local rule in reverse topological order. -/
def backward [Field R] (g : Graph R) (root : ℕ) (gr0 : ℕ → R) : ℕ → R :=
  let st := build_topo g root ⟨[], []⟩
  replay g st.topo (fun k => if k = root then 1 else gr0 k)

/-- The gradient state of a freshly constructed graph: every `grad` is `0.0`. -/
def zeroGrads [Zero R] : ℕ → R := fun _ => (0 : R)

/-! ## The chain-rule specification

What `backward` is supposed to compute, stated independently of the
algorithm: the partial derivative of the root's value with respect to each
node's value, as the sum over all directed paths through the DAG of the
products of the local partial derivatives along each path. -/

/-- The local partial derivative of node `m`'s forward formula with respect
to operand identity `n`: the exact per-operation derivative (a repeated
operand, as in `a * a`, picks up the contribution of both slots). -/
def localCoef [Field R] (g : Graph R) (m n : ℕ) : R :=
  match opAt g m with
  | .leaf => 0
  | .add a b => (if a = n then 1 else 0) + (if b = n then 1 else 0)
  | .mul a b => (if a = n then dataAt g b else 0) + (if b = n then dataAt g a else 0)
  | .pow a e => if a = n then (e : R) * dataAt g a ^ (e - 1) else 0
  | .tanh a => if a = n then 1 - dataAt g m ^ 2 else 0
  | .exp a => if a = n then dataAt g m else 0

/-- All directed operand paths from `v` down to `n`, each recorded as the
list of identities traversed (starting at `v`, ending at `n`).  On a
well-formed arena every edge goes strictly down, so the `c < v` guards are
vacuous and the enumeration is finite and complete. -/
def pathsD [Zero R] (g : Graph R) (v n : ℕ) : List (List ℕ) :=
  if v = n then [[v]]
  else ((opAt g v).prev).foldr
    (fun c acc =>
      (if h : c < v then (pathsD g c n).map (fun p => v :: p) else []) ++ acc) []
termination_by v
decreasing_by exact h

/-- The chain-rule weight of a path: the product of the local partial
derivatives along its edges. -/
def pathWeight [Field R] (g : Graph R) : List ℕ → R
  | [] => 1
  | [_] => 1
  | a :: b :: p => localCoef g a b * pathWeight g (b :: p)

/-- ∂(value of `root`)/∂(value of `n`) under the multivariable chain rule:
the sum over all paths of their weights. -/
def derivSpec [Field R] (g : Graph R) (root n : ℕ) : R :=
  ((pathsD g root n).map (pathWeight g)).sum

/-- The adjoint recursion: `1` at the root, and otherwise the sum over all
consumers `m` of `n` of `m`'s local derivative times `m`'s adjoint.  This is
the standard reverse-mode characterization; it is proved equal to the
path-sum `derivSpec`. -/
def deriv [Field R] (g : Graph R) (root n : ℕ) : R :=
  if n = root then 1
  else Finset.sum (Finset.range g.length) fun m =>
    if h : n < m ∧ m < g.length then localCoef g m n * deriv g root m else 0
termination_by g.length - n
decreasing_by omega

/-- `n` is reachable from `v` going backward through operand edges (the set
of nodes whose gradient the backward pass from `v` is specified to fill). -/
def Reaches [Zero R] (g : Graph R) (v n : ℕ) : Prop :=
  Relation.ReflTransGen (fun a b => b ∈ (opAt g a).prev) v n

/-! ## Properties of the depth-first ordering -/

theorem opAt_of_ge [Zero R] (g : Graph R) (v : ℕ) (h : g.length ≤ v) :
    opAt g v = Op.leaf := by
  unfold opAt
  rw [List.getD_eq_default]
  · rfl
  · exact h

theorem prev_lt [Zero R] (g : Graph R) (hwf : WF g) (v c : ℕ)
    (hc : c ∈ (opAt g v).prev) : c < v := by
  rcases lt_or_ge v g.length with hv | hv
  · exact hwf v (List.mem_range.mpr hv) c hc
  · rw [opAt_of_ge g v hv] at hc
    simp [Op.prev] at hc

/-- The de-facto topological-order property of a node ordering: wherever a
node occurs, all of its operands occur strictly before that occurrence. -/
def SplitClosed [Zero R] (g : Graph R) (l : List ℕ) : Prop :=
  ∀ A m B, l = A ++ m :: B → ∀ c ∈ (opAt g m).prev, c ∈ A

theorem SplitClosed.nil [Zero R] (g : Graph R) : SplitClosed g [] := by
  intro A m B hAB
  exact absurd hAB (by simp)

theorem SplitClosed.mem_of_mem [Zero R] (g : Graph R) {l : List ℕ}
    (h : SplitClosed g l) {m : ℕ} (hm : m ∈ l) {c : ℕ}
    (hc : c ∈ (opAt g m).prev) : c ∈ l := by
  obtain ⟨A, B, rfl⟩ := List.append_of_mem hm
  have := h A m B rfl c hc
  exact List.mem_append_left _ this

theorem SplitClosed.reaches_mem [Zero R] (g : Graph R) {l : List ℕ}
    (h : SplitClosed g l) {v u : ℕ} (hv : v ∈ l) (hr : Reaches g v u) :
    u ∈ l := by
  induction hr with
  | refl => exact hv
  | tail _ hstep ih => exact h.mem_of_mem g ih hstep

theorem append_singleton_split {l A B : List ℕ} {v m : ℕ}
    (h : l ++ [v] = A ++ m :: B) :
    (B = [] ∧ m = v ∧ A = l) ∨ ∃ B0, B = B0 ++ [v] ∧ l = A ++ m :: B0 := by
  rcases List.eq_nil_or_concat B with rfl | ⟨B0, b, rfl⟩
  · left
    have := congrArg List.reverse h
    simp at this
    exact ⟨rfl, this.1.symm, this.2.symm⟩
  · right
    have := congrArg List.reverse h
    simp [List.reverse_append] at this
    refine ⟨B0, ?_, this.2⟩
    rw [this.1]
    simp

/-- Entry conditions for `build_topo g v s`: the ordering built so far is
duplicate-free and topologically closed, everything ordered is visited, and
every visited-but-unordered node (an ancestor still on the recursion stack)
lies strictly above `v`. -/
def Pre [Zero R] (g : Graph R) (v : ℕ) (s : TopoSt) : Prop :=
  s.topo.Nodup ∧ SplitClosed g s.topo ∧
  (∀ u ∈ s.topo, u ∈ s.visited) ∧
  (∀ u ∈ s.visited, u ∈ s.topo ∨ v < u)

/-- Exit conditions of `build_topo g v s`: the ordering grows by appending,
stays duplicate-free and topologically closed, `v` ends up ordered, the
nodes on the recursion stack are untouched, and the new portion of the
ordering is exactly (a subset of, resp. all of) the nodes reachable
backward from `v`. -/
def Post [Zero R] (g : Graph R) (v : ℕ) (s s1 : TopoSt) : Prop :=
  (∃ t, s1.topo = s.topo ++ t) ∧
  s1.topo.Nodup ∧ SplitClosed g s1.topo ∧
  (∀ u ∈ s1.topo, u ∈ s1.visited) ∧
  (∀ u ∈ s.visited, u ∈ s1.visited) ∧
  (∀ u ∈ s1.visited, u ∈ s.visited ∨ u ∈ s1.topo) ∧
  (∀ u, u ∈ s1.visited → u ∉ s1.topo → u ∈ s.visited ∧ u ∉ s.topo) ∧
  (∀ u ∈ s1.topo, u ∈ s.topo ∨ u ≤ v) ∧
  v ∈ s1.topo ∧
  (∀ u ∈ s1.topo, u ∈ s.topo ∨ Reaches g v u) ∧
  (∀ u, Reaches g v u → u ∈ s1.topo)

theorem foldl_build_topo_post [Zero R] (g : Graph R) (v : ℕ)
    (IH : ∀ c, c < v → ∀ s, Pre g c s → Post g c s (build_topo g c s)) :
    ∀ cs : List ℕ, (∀ c ∈ cs, c < v) →
    ∀ s : TopoSt,
      s.topo.Nodup → SplitClosed g s.topo → (∀ u ∈ s.topo, u ∈ s.visited) →
      (∀ u ∈ s.visited, u ∈ s.topo ∨ v ≤ u) →
      (∃ t, (cs.foldl (fun t c => if h : c < v then build_topo g c t else t) s).topo
          = s.topo ++ t) ∧
      (cs.foldl (fun t c => if h : c < v then build_topo g c t else t) s).topo.Nodup ∧
      SplitClosed g (cs.foldl (fun t c => if h : c < v then build_topo g c t else t) s).topo ∧
      (∀ u ∈ (cs.foldl (fun t c => if h : c < v then build_topo g c t else t) s).topo,
        u ∈ (cs.foldl (fun t c => if h : c < v then build_topo g c t else t) s).visited) ∧
      (∀ u ∈ s.visited,
        u ∈ (cs.foldl (fun t c => if h : c < v then build_topo g c t else t) s).visited) ∧
      (∀ u ∈ (cs.foldl (fun t c => if h : c < v then build_topo g c t else t) s).visited,
        u ∈ s.visited ∨ u ∈ (cs.foldl (fun t c => if h : c < v then build_topo g c t else t) s).topo) ∧
      (∀ u, u ∈ (cs.foldl (fun t c => if h : c < v then build_topo g c t else t) s).visited →
        u ∉ (cs.foldl (fun t c => if h : c < v then build_topo g c t else t) s).topo →
        u ∈ s.visited ∧ u ∉ s.topo) ∧
      (∀ u ∈ (cs.foldl (fun t c => if h : c < v then build_topo g c t else t) s).topo,
        u ∈ s.topo ∨ u < v) ∧
      (∀ u ∈ (cs.foldl (fun t c => if h : c < v then build_topo g c t else t) s).topo,
        u ∈ s.topo ∨ ∃ c ∈ cs, Reaches g c u) ∧
      (∀ c ∈ cs, ∀ u, Reaches g c u →
        u ∈ (cs.foldl (fun t c => if h : c < v then build_topo g c t else t) s).topo) := by
  intro cs
  induction cs with
  | nil =>
      intro _ s h1 h2 h3 h4
      simp only [List.foldl_nil]
      refine ⟨⟨[], by simp⟩, h1, h2, h3, fun u hu => hu, fun u hu => Or.inl hu,
        fun u hu hnu => ⟨hu, hnu⟩, fun u hu => Or.inl hu, fun u hu => Or.inl hu,
        fun c hc => absurd hc (by simp)⟩
  | cons c cs ih =>
      intro hlt s h1 h2 h3 h4
      have hc : c < v := hlt c (by simp)
      simp only [List.foldl_cons, dif_pos hc]
      set s1 := build_topo g c s with hs1
      have hpre : Pre g c s := by
        refine ⟨h1, h2, h3, fun u hu => ?_⟩
        rcases h4 u hu with h | h
        · exact Or.inl h
        · exact Or.inr (lt_of_lt_of_le hc h)
      have hpost := IH c hc s hpre
      obtain ⟨⟨t1, hpt⟩, p2, p3, p4, p5, p6, p7, p8, p9, p10, p11⟩ := hpost
      have h4' : ∀ u ∈ s1.visited, u ∈ s1.topo ∨ v ≤ u := by
        intro u hu
        rcases p6 u hu with h | h
        · rcases h4 u h with h' | h'
          · exact Or.inl (by rw [hpt]; exact List.mem_append_left _ h')
          · exact Or.inr h'
        · exact Or.inl h
      have hrest := ih (fun c' hc' => hlt c' (by simp [hc'])) s1 p2 p3 p4 h4'
      obtain ⟨⟨t2, hqt⟩, q2, q3, q4, q5, q6, q7, q8, q9, q10⟩ := hrest
      set s2 := cs.foldl (fun t c => if h : c < v then build_topo g c t else t) s1 with hs2
      have hmono1 : ∀ u ∈ s.topo, u ∈ s1.topo := by
        intro u hu; rw [hpt]; exact List.mem_append_left _ hu
      have hmono2 : ∀ u ∈ s1.topo, u ∈ s2.topo := by
        intro u hu; rw [hqt]; exact List.mem_append_left _ hu
      refine ⟨⟨t1 ++ t2, by rw [hqt, hpt, List.append_assoc]⟩, q2, q3, q4,
        fun u hu => q5 u (p5 u hu), ?_, ?_, ?_, ?_, ?_⟩
      · intro u hu
        rcases q6 u hu with h | h
        · rcases p6 u h with h' | h'
          · exact Or.inl h'
          · exact Or.inr (hmono2 u h')
        · exact Or.inr h
      · intro u hu hnu
        have := q7 u hu hnu
        exact p7 u this.1 this.2
      · intro u hu
        rcases q8 u hu with h | h
        · rcases p8 u h with h' | h'
          · exact Or.inl h'
          · exact Or.inr (lt_of_le_of_lt h' hc)
        · exact Or.inr h
      · intro u hu
        rcases q9 u hu with h | h
        · rcases p10 u h with h' | h'
          · exact Or.inl h'
          · exact Or.inr ⟨c, by simp, h'⟩
        · obtain ⟨c', hc', hr⟩ := h
          exact Or.inr ⟨c', by simp [hc'], hr⟩
      · intro c' hc' u hr
        rcases List.mem_cons.mp hc' with rfl | hmem
        · exact hmono2 u (p11 u hr)
        · exact q10 c' hmem u hr

theorem build_topo_eq_of_mem [Zero R] (g : Graph R) (v : ℕ) (s : TopoSt)
    (hv : v ∈ s.visited) : build_topo g v s = s := by
  rw [build_topo]
  simp [hv]

theorem build_topo_eq_of_not_mem [Zero R] (g : Graph R) (v : ℕ) (s : TopoSt)
    (hv : v ∉ s.visited) :
    build_topo g v s =
      ⟨(((opAt g v).prev).foldl (fun t c => if h : c < v then build_topo g c t else t)
          ⟨s.topo, v :: s.visited⟩).topo ++ [v],
        (((opAt g v).prev).foldl (fun t c => if h : c < v then build_topo g c t else t)
          ⟨s.topo, v :: s.visited⟩).visited⟩ := by
  rw [build_topo]
  simp [hv]

/-- The master specification of `build_topo`: on a well-formed arena, from any
well-formed intermediate state, the depth-first search returns a state
satisfying all the exit conditions of `Post`. -/
theorem build_topo_post [Zero R] (g : Graph R) (hwf : WF g) :
    ∀ v s, Pre g v s → Post g v s (build_topo g v s) := by
  intro v
  induction v using Nat.strong_induction_on with
  | _ v IH =>
    intro s hpre
    obtain ⟨h1, h2, h3, h4⟩ := hpre
    by_cases hv : v ∈ s.visited
    · rw [build_topo_eq_of_mem g v s hv]
      have hvt : v ∈ s.topo := by
        rcases h4 v hv with h | h
        · exact h
        · omega
      exact ⟨⟨[], by simp⟩, h1, h2, h3, fun u hu => hu, fun u hu => Or.inl hu,
        fun u hu hnu => ⟨hu, hnu⟩, fun u hu => Or.inl hu, hvt,
        fun u hu => Or.inl hu, fun u hr => h2.reaches_mem g hvt hr⟩
    · rw [build_topo_eq_of_not_mem g v s hv]
      have hcs : ∀ c ∈ (opAt g v).prev, c < v := fun c hc => prev_lt g hwf v c hc
      have hfold := foldl_build_topo_post g v (fun c hc t hp => IH c hc t hp)
        ((opAt g v).prev) hcs ⟨s.topo, v :: s.visited⟩
        h1 h2 (fun u hu => List.mem_cons_of_mem _ (h3 u hu))
        (by intro u hu
            rcases List.mem_cons.mp hu with rfl | hu'
            · exact Or.inr le_rfl
            · rcases h4 u hu' with h | h
              · exact Or.inl h
              · exact Or.inr (le_of_lt h))
      obtain ⟨⟨t2, hqt⟩, q2, q3, q4, q5, q6, q7, q8, q9, q10⟩ := hfold
      set s2 := ((opAt g v).prev).foldl (fun t c => if h : c < v then build_topo g c t else t)
        (⟨s.topo, v :: s.visited⟩ : TopoSt) with hs2
      have hvnotin : v ∉ s2.topo := by
        intro hin
        rcases q8 v hin with h | h
        · exact hv (h3 v h)
        · omega
      have hvin : v ∈ s2.topo ++ [v] := by simp
      refine ⟨⟨t2 ++ [v], by rw [hqt, List.append_assoc]⟩, ?_, ?_, ?_, ?_, ?_, ?_, ?_, hvin, ?_, ?_⟩
      · simp [List.nodup_append, q2, hvnotin]
      · intro A m B hsplit c hc
        rcases append_singleton_split hsplit with ⟨_, rfl, rfl⟩ | ⟨B0, _, hsp⟩
        · exact q10 c hc c Relation.ReflTransGen.refl
        · exact q3 A m B0 hsp c hc
      · intro u hu
        rcases List.mem_append.mp hu with h | h
        · exact q4 u h
        · have : u = v := by simpa using h
          subst this
          exact q5 u (by simp)
      · intro u hu
        exact q5 u (List.mem_cons_of_mem _ hu)
      · intro u hu
        rcases q6 u hu with h | h
        · rcases List.mem_cons.mp h with rfl | h'
          · exact Or.inr hvin
          · exact Or.inl h'
        · exact Or.inr (List.mem_append_left _ h)
      · intro u hu hnu
        have hns2 : u ∉ s2.topo := fun hh => hnu (List.mem_append_left _ hh)
        have := q7 u hu hns2
        rcases List.mem_cons.mp this.1 with rfl | h'
        · exact absurd hvin hnu
        · exact ⟨h', this.2⟩
      · intro u hu
        rcases List.mem_append.mp hu with h | h
        · rcases q8 u h with h' | h'
          · exact Or.inl h'
          · exact Or.inr (le_of_lt h')
        · have : u = v := by simpa using h
          subst this
          exact Or.inr le_rfl
      · intro u hu
        rcases List.mem_append.mp hu with h | h
        · rcases q9 u h with h' | h'
          · exact Or.inl h'
          · obtain ⟨c, hc, hr⟩ := h'
            exact Or.inr (Relation.ReflTransGen.head hc hr)
        · have : u = v := by simpa using h
          subst this
          exact Or.inr Relation.ReflTransGen.refl
      · intro u hr
        rcases Relation.ReflTransGen.cases_head hr with rfl | ⟨c, hc, hr'⟩
        · exact hvin
        · exact List.mem_append_left _ (q10 c hc u hr')

theorem mem_prev_left (a b : ℕ) : a ∈ (Op.add a b).prev ∧ a ∈ (Op.mul a b).prev := by
  constructor <;> (simp only [Op.prev]; split <;> simp)

theorem mem_prev_right (a b : ℕ) : b ∈ (Op.add a b).prev ∧ b ∈ (Op.mul a b).prev := by
  constructor <;> (simp only [Op.prev]; split <;> simp_all)

/-- Each stored `_backward` closure adds exactly the local partial derivative
times the output's gradient onto each operand, in state-passing form: one
call of node `m`'s rule adds `localCoef g m n * gr m` to every `n`. -/
theorem nodeBackward_eq [Field R] (g : Graph R) (hwf : WF g) (m : ℕ) (gr : ℕ → R) (n : ℕ) :
    nodeBackward g m gr n = gr n + localCoef g m n * gr m := by
  cases hop : opAt g m with
  | leaf => simp [nodeBackward, localCoef, hop]
  | add a b =>
      have ham : m ≠ a := (prev_lt g hwf m a (hop ▸ (mem_prev_left a b).1)).ne'
      have hbm : m ≠ b := (prev_lt g hwf m b (hop ▸ (mem_prev_right a b).1)).ne'
      simp only [nodeBackward, hop, localCoef, bump]
      rcases eq_or_ne n a with rfl | hna
      · rcases eq_or_ne n b with rfl | hnb
        · simp [ham]
          ring
        · simp [ham, hbm, hnb, Ne.symm hnb]
      · rcases eq_or_ne n b with rfl | hnb
        · simp [ham, hbm, hna, Ne.symm hna]
        · simp [ham, hbm, hna, hnb, Ne.symm hna, Ne.symm hnb]
  | mul a b =>
      have ham : m ≠ a := (prev_lt g hwf m a (hop ▸ (mem_prev_left a b).2)).ne'
      have hbm : m ≠ b := (prev_lt g hwf m b (hop ▸ (mem_prev_right a b).2)).ne'
      simp only [nodeBackward, hop, localCoef, bump]
      rcases eq_or_ne n a with rfl | hna
      · rcases eq_or_ne n b with rfl | hnb
        · simp [ham]
          ring
        · simp [ham, hbm, hnb, Ne.symm hnb]
      · rcases eq_or_ne n b with rfl | hnb
        · simp [ham, hbm, hna, Ne.symm hna]
        · simp [ham, hbm, hna, hnb, Ne.symm hna, Ne.symm hnb]
  | pow a e =>
      simp only [nodeBackward, hop, localCoef, bump]
      rcases eq_or_ne n a with rfl | hna
      · simp
      · simp [hna, Ne.symm hna]
  | tanh a =>
      simp only [nodeBackward, hop, localCoef, bump]
      rcases eq_or_ne n a with rfl | hna
      · simp
      · simp [hna, Ne.symm hna]
  | exp a =>
      simp only [nodeBackward, hop, localCoef, bump]
      rcases eq_or_ne n a with rfl | hna
      · simp
      · simp [hna, Ne.symm hna]

theorem localCoef_eq_zero_of_not_mem_prev [Field R] (g : Graph R) (m n : ℕ)
    (h : n ∉ (opAt g m).prev) : localCoef g m n = 0 := by
  cases hop : opAt g m with
  | leaf => simp [localCoef, hop]
  | add a b =>
      rw [hop] at h
      by_cases hab : a = b
      · subst hab
        simp [Op.prev] at h
        simp [localCoef, hop, Ne.symm h]
      · simp [Op.prev, hab] at h
        simp [localCoef, hop, Ne.symm h.1, Ne.symm h.2]
  | mul a b =>
      rw [hop] at h
      by_cases hab : a = b
      · subst hab
        simp [Op.prev] at h
        simp [localCoef, hop, Ne.symm h]
      · simp [Op.prev, hab] at h
        simp [localCoef, hop, Ne.symm h.1, Ne.symm h.2]
  | pow a e =>
      rw [hop] at h
      simp [Op.prev] at h
      simp [localCoef, hop, Ne.symm h]
  | tanh a =>
      rw [hop] at h
      simp [Op.prev] at h
      simp [localCoef, hop, Ne.symm h]
  | exp a =>
      rw [hop] at h
      simp [Op.prev] at h
      simp [localCoef, hop, Ne.symm h]

theorem deriv_root [Field R] (g : Graph R) (root : ℕ) : deriv g root root = 1 := by
  rw [deriv]
  simp

theorem deriv_eq_zero_of_not_reaches [Field R] (g : Graph R) (hwf : WF g) (root : ℕ) :
    ∀ k n, g.length - n ≤ k → ¬Reaches g root n → deriv g root n = 0 := by
  intro k
  induction k with
  | zero =>
      intro n hk hr
      have hnroot : n ≠ root := fun h => hr (h ▸ Relation.ReflTransGen.refl)
      rw [deriv, if_neg hnroot]
      apply Finset.sum_eq_zero
      intro m hm
      rw [dif_neg]
      omega
  | succ k ih =>
      intro n hk hr
      have hnroot : n ≠ root := fun h => hr (h ▸ Relation.ReflTransGen.refl)
      rw [deriv, if_neg hnroot]
      apply Finset.sum_eq_zero
      intro m hm
      by_cases hg : n < m ∧ m < g.length
      · rw [dif_pos hg]
        by_cases hrm : Reaches g root m
        · have hnm : n ∉ (opAt g m).prev := fun hmem => hr (hrm.tail hmem)
          rw [localCoef_eq_zero_of_not_mem_prev g m n hnm, zero_mul]
        · rw [ih m (by omega) hrm, mul_zero]
      · rw [dif_neg hg]

/-- The gradient state right after `self.grad = 1.0` when every other
gradient is zero at entry. -/
def seedFun [Field R] (root : ℕ) : ℕ → R := fun k => if k = root then (1 : R) else 0

theorem term_vanishes [Field R] (g : Graph R) (hwf : WF g) (root : ℕ)
    (topo : List ℕ) (hnd : topo.Nodup) (hsc : SplitClosed g topo)
    (hcomp : ∀ u, Reaches g root u → u ∈ topo)
    (P Q : List ℕ) (m : ℕ) (hPQ : topo.reverse = P ++ m :: Q) :
    ∀ mq, mq ∉ P → localCoef g mq m * deriv g root mq = 0 := by
  intro mq hmq
  by_cases hrm : Reaches g root mq
  case neg =>
    rw [deriv_eq_zero_of_not_reaches g hwf root g.length mq (by omega) hrm, mul_zero]
  case pos =>
    have hmem : mq ∈ topo := hcomp mq hrm
    have hmem' : mq ∈ P ++ m :: Q := by
      rw [← hPQ]
      exact List.mem_reverse.mpr hmem
    rcases List.mem_append.mp hmem' with h | h
    · exact absurd h hmq
    rcases List.mem_cons.mp h with rfl | hq
    · by_cases hp : mq ∈ (opAt g mq).prev
      · have := prev_lt g hwf mq mq hp
        omega
      · rw [localCoef_eq_zero_of_not_mem_prev g mq mq hp, zero_mul]
    · by_cases hp : m ∈ (opAt g mq).prev
      · exfalso
        obtain ⟨Q1, Q2, rfl⟩ := List.append_of_mem hq
        have htopo : topo = Q2.reverse ++ mq :: (Q1.reverse ++ m :: P.reverse) := by
          have h2 : topo = (P ++ m :: (Q1 ++ mq :: Q2)).reverse := by
            rw [← hPQ, List.reverse_reverse]
          rw [h2]
          simp
        have hma : m ∈ Q2.reverse := hsc Q2.reverse mq (Q1.reverse ++ m :: P.reverse) htopo m hp
        have hnd2 := hnd
        rw [htopo, List.nodup_append] at hnd2
        exact hnd2.2.2 hma (by simp)
      · rw [localCoef_eq_zero_of_not_mem_prev g mq m hp, zero_mul]

theorem partial_sum_eq_deriv [Field R] (g : Graph R) (hwf : WF g) (root : ℕ)
    (topo : List ℕ) (hnd : topo.Nodup) (hsc : SplitClosed g topo)
    (hcomp : ∀ u, Reaches g root u → u ∈ topo)
    (hlen : ∀ u ∈ topo, u < g.length)
    (hform : ∃ pre, topo = pre ++ [root])
    (P Q : List ℕ) (m : ℕ) (hPQ : topo.reverse = P ++ m :: Q) :
    seedFun root m + ((P.map (fun mm => localCoef g mm m * deriv g root mm)).sum)
      = deriv g root m := by
  by_cases hm : m = root
  · subst hm
    obtain ⟨pre, rfl⟩ := hform
    rw [show (pre ++ [m]).reverse = m :: pre.reverse by simp] at hPQ
    have hP : P = [] := by
      cases P with
      | nil => rfl
      | cons p P' =>
          exfalso
          rw [List.cons_append] at hPQ
          injection hPQ with h1 h2
          have hmem : m ∈ pre.reverse := by
            rw [h2]
            simp
          rw [List.nodup_append] at hnd
          exact hnd.2.2 (List.mem_reverse.mp hmem) (by simp)
    subst hP
    simp [seedFun, deriv_root]
  · have hvanish := term_vanishes g hwf root topo hnd hsc hcomp P Q m hPQ
    have hPnd : P.Nodup := by
      have hrev : topo.reverse.Nodup := List.nodup_reverse.mpr hnd
      rw [hPQ] at hrev
      exact hrev.of_append_left
    have hPlen : ∀ p ∈ P, p < g.length := by
      intro p hp
      apply hlen
      rw [← List.mem_reverse, hPQ]
      exact List.mem_append_left _ hp
    have h1 : ((Finset.range g.length).sum
        (fun mm => if h : m < mm ∧ mm < g.length then localCoef g mm m * deriv g root mm else 0))
        = (Finset.range g.length).sum (fun mm => localCoef g mm m * deriv g root mm) := by
      apply Finset.sum_congr rfl
      intro mm hmm
      have hlt : mm < g.length := Finset.mem_range.mp hmm
      by_cases hg : m < mm
      · rw [dif_pos ⟨hg, hlt⟩]
      · rw [dif_neg (fun hc => hg hc.1)]
        by_cases hpm : m ∈ (opAt g mm).prev
        · exact absurd (prev_lt g hwf mm m hpm) hg
        · rw [localCoef_eq_zero_of_not_mem_prev g mm m hpm, zero_mul]
    have h2 : P.toFinset.sum (fun mm => localCoef g mm m * deriv g root mm)
        = (Finset.range g.length).sum (fun mm => localCoef g mm m * deriv g root mm) := by
      apply Finset.sum_subset
      · intro p hp
        rw [List.mem_toFinset] at hp
        exact Finset.mem_range.mpr (hPlen p hp)
      · intro x _ hnx
        rw [List.mem_toFinset] at hnx
        exact hvanish x hnx
    have h3 : P.toFinset.sum (fun mm => localCoef g mm m * deriv g root mm)
        = (P.map (fun mm => localCoef g mm m * deriv g root mm)).sum :=
      List.sum_toFinset _ hPnd
    have hseed : seedFun root m = (0 : R) := by simp [seedFun, hm]
    rw [hseed, zero_add]
    conv_rhs => rw [deriv, if_neg hm]
    rw [h1, ← h2, h3]

theorem reaches_le [Zero R] (g : Graph R) (hwf : WF g) {v u : ℕ}
    (h : Reaches g v u) : u ≤ v := by
  induction h with
  | refl => exact le_refl v
  | tail _ hstep ih => exact le_of_lt (lt_of_lt_of_le (prev_lt g hwf _ _ hstep) ih)

theorem replay_aux [Field R] (g : Graph R) (hwf : WF g) (root : ℕ)
    (topo : List ℕ) (hnd : topo.Nodup) (hsc : SplitClosed g topo)
    (hcomp : ∀ u, Reaches g root u → u ∈ topo)
    (hlen : ∀ u ∈ topo, u < g.length)
    (hform : ∃ pre, topo = pre ++ [root]) :
    ∀ (Q P : List ℕ) (gr : ℕ → R), topo.reverse = P ++ Q →
      (∀ n, gr n = seedFun root n
        + ((P.map (fun m => localCoef g m n * deriv g root m)).sum)) →
      ∀ n, (Q.foldl (fun grr m => nodeBackward g m grr) gr) n
        = seedFun root n
          + (((P ++ Q).map (fun m => localCoef g m n * deriv g root m)).sum) := by
  intro Q
  induction Q with
  | nil =>
      intro P gr hPQ hinv n
      simpa using hinv n
  | cons m Q' ih =>
      intro P gr hPQ hinv n
      have hkey : gr m = deriv g root m := by
        rw [hinv m]
        exact partial_sum_eq_deriv g hwf root topo hnd hsc hcomp hlen hform P Q' m hPQ
      have hstep : ∀ nn, nodeBackward g m gr nn
          = seedFun root nn
            + (((P ++ [m]).map (fun mm => localCoef g mm nn * deriv g root mm)).sum) := by
        intro nn
        rw [nodeBackward_eq g hwf m gr nn, hinv nn, hkey]
        simp [List.map_append]
        ring
      have hres := ih (P ++ [m]) (nodeBackward g m gr)
        (by rw [List.append_assoc]; simpa using hPQ) hstep
      rw [List.foldl_cons]
      rw [hres n]
      congr 2
      rw [List.append_assoc]
      simp

/-- The core correctness of the backward pass against the adjoint recursion:
on a well-formed arena, with every non-root gradient zero at entry, after
`backward(root)` every node reachable backward from the root holds exactly
`deriv g root n`. -/
theorem backward_eq_deriv [Field R] (g : Graph R) (hwf : WF g) (root : ℕ)
    (hroot : root < g.length) (gr0 : ℕ → R) (h0 : ∀ n, n ≠ root → gr0 n = 0) :
    ∀ n, Reaches g root n → backward g root gr0 n = deriv g root n := by
  have hpre : Pre g root ⟨[], []⟩ :=
    ⟨List.nodup_nil, SplitClosed.nil g, by simp, by simp⟩
  have hpost := build_topo_post g hwf root ⟨[], []⟩ hpre
  obtain ⟨⟨t, ht⟩, p2, p3, p4, p5, p6, p7, p8, p9, p10, p11⟩ := hpost
  set st := build_topo g root ⟨[], []⟩ with hst
  have hreach : ∀ u ∈ st.topo, Reaches g root u := by
    intro u hu
    rcases p10 u hu with h | h
    · exact absurd h (by simp)
    · exact h
  have hlen : ∀ u ∈ st.topo, u < g.length := by
    intro u hu
    exact lt_of_le_of_lt (reaches_le g hwf (hreach u hu)) hroot
  have hform : ∃ pre, st.topo = pre ++ [root] := by
    rw [hst, build_topo_eq_of_not_mem g root ⟨[], []⟩ (by simp)]
    exact ⟨_, rfl⟩
  have hseed : (fun k => if k = root then (1 : R) else gr0 k) = seedFun root := by
    funext k
    by_cases hk : k = root
    · simp [hk, seedFun]
    · simp [hk, seedFun, h0 k hk]
  have hmain := replay_aux g hwf root st.topo p2 p3 p11 hlen hform
    st.topo.reverse [] (seedFun root) (by simp)
    (by intro nn; simp)
  have hbw : backward g root gr0 = replay g st.topo (seedFun root) := by
    rw [backward, hseed]
  intro n hn
  rw [hbw, replay, hmain n, List.nil_append]
  have hmemrev : n ∈ st.topo.reverse := List.mem_reverse.mpr (p11 n hn)
  obtain ⟨P1, Q1, hdecomp⟩ := List.append_of_mem hmemrev
  have hndrev : st.topo.reverse.Nodup := List.nodup_reverse.mpr p2
  rw [hdecomp] at hndrev
  rw [List.nodup_append] at hndrev
  rw [hdecomp, List.map_append, List.sum_append]
  have hzero : (((n :: Q1).map (fun m => localCoef g m n * deriv g root m)).sum) = 0 := by
    apply List.sum_eq_zero
    intro x hx
    rw [List.mem_map] at hx
    obtain ⟨q, hq, rfl⟩ := hx
    have hqnot : q ∉ P1 := by
      intro hc
      exact hndrev.2.2 hc hq
    exact term_vanishes g hwf root st.topo p2 p3 p11 P1 Q1 n hdecomp q hqnot
  rw [hzero, add_zero]
  exact partial_sum_eq_deriv g hwf root st.topo p2 p3 p11 hlen hform P1 Q1 n hdecomp

/-! ## Frame and accumulation structure of the backward pass -/

theorem nodeBackward_not_prev [Field R] (g : Graph R) (m : ℕ) (gr : ℕ → R) (n : ℕ)
    (h : n ∉ (opAt g m).prev) : nodeBackward g m gr n = gr n := by
  cases hop : opAt g m with
  | leaf => simp [nodeBackward, hop]
  | add a b =>
      rw [hop] at h
      by_cases hab : a = b
      · subst hab
        simp [Op.prev] at h
        simp [nodeBackward, hop, bump, h]
      · simp [Op.prev, hab] at h
        simp [nodeBackward, hop, bump, h.1, h.2]
  | mul a b =>
      rw [hop] at h
      by_cases hab : a = b
      · subst hab
        simp [Op.prev] at h
        simp [nodeBackward, hop, bump, h]
      · simp [Op.prev, hab] at h
        simp [nodeBackward, hop, bump, h.1, h.2]
  | pow a e =>
      rw [hop] at h
      simp [Op.prev] at h
      simp [nodeBackward, hop, bump, h]
  | tanh a =>
      rw [hop] at h
      simp [Op.prev] at h
      simp [nodeBackward, hop, bump, h]
  | exp a =>
      rw [hop] at h
      simp [Op.prev] at h
      simp [nodeBackward, hop, bump, h]

theorem foldl_nodeBackward_frame [Field R] (g : Graph R) (n : ℕ) :
    ∀ (L : List ℕ) (gr : ℕ → R), (∀ m ∈ L, n ∉ (opAt g m).prev) →
      (L.foldl (fun grr m => nodeBackward g m grr) gr) n = gr n := by
  intro L
  induction L with
  | nil => intro gr _; rfl
  | cons m L' ih =>
      intro gr hL
      rw [List.foldl_cons, ih (nodeBackward g m gr) (fun m' hm' => hL m' (by simp [hm']))]
      exact nodeBackward_not_prev g m gr n (hL m (by simp))

/-- The backward pass only writes the root's gradient and the gradients of
nodes reachable backward from the root; every other gradient is returned
exactly as it was. -/
theorem backward_frame [Field R] (g : Graph R) (hwf : WF g) (root : ℕ) (gr0 : ℕ → R) :
    ∀ n, ¬Reaches g root n → backward g root gr0 n = gr0 n := by
  intro n hn
  have hpre : Pre g root ⟨[], []⟩ :=
    ⟨List.nodup_nil, SplitClosed.nil g, by simp, by simp⟩
  obtain ⟨⟨t, ht⟩, p2, p3, p4, p5, p6, p7, p8, p9, p10, p11⟩ :=
    build_topo_post g hwf root ⟨[], []⟩ hpre
  set st := build_topo g root ⟨[], []⟩ with hst
  have hnroot : n ≠ root := fun h => hn (h ▸ Relation.ReflTransGen.refl)
  have hnot : n ∉ st.topo := fun h => by
    rcases p10 n h with h' | h'
    · simp at h'
    · exact hn h'
  rw [backward, replay]
  rw [foldl_nodeBackward_frame g n st.topo.reverse _ ?side]
  · simp [hnroot]
  case side =>
    intro m hm
    intro hmem
    apply hnot
    exact p3.mem_of_mem g (List.mem_reverse.mp hm) hmem

/-- The backward pass never reads the root gradient it overwrites: two entry
states agreeing away from the root produce identical results. -/
theorem backward_discards_root [Field R] (g : Graph R) (root : ℕ) (gr0 gr1 : ℕ → R)
    (h : ∀ n, n ≠ root → gr0 n = gr1 n) :
    backward g root gr0 = backward g root gr1 := by
  have hfun : (fun k => if k = root then (1 : R) else gr0 k)
      = (fun k => if k = root then (1 : R) else gr1 k) := by
    funext k
    by_cases hk : k = root
    · simp [hk]
    · simp [hk, h k hk]
  rw [backward, backward, hfun]

theorem nodeBackward_additive [Field R] (g : Graph R) (m : ℕ) (gr1 gr2 : ℕ → R) (n : ℕ) :
    nodeBackward g m (fun k => gr1 k + gr2 k) n
      = nodeBackward g m gr1 n + nodeBackward g m gr2 n := by
  cases hop : opAt g m <;>
    simp only [nodeBackward, hop, bump] <;> split_ifs <;> ring

/-- The replay loop is additive in the gradient state: every write is a
`+=` of a quantity linear in the current state, so gradient contributions
superpose and nothing is ever reset. -/
theorem replay_additive [Field R] (g : Graph R) (topo : List ℕ) :
    ∀ (gr1 gr2 : ℕ → R) (n : ℕ),
      replay g topo (fun k => gr1 k + gr2 k) n
        = replay g topo gr1 n + replay g topo gr2 n := by
  simp only [replay]
  generalize topo.reverse = L
  induction L with
  | nil => intro gr1 gr2 n; rfl
  | cons m L' ih =>
      intro gr1 gr2 n
      simp only [List.foldl_cons]
      have hfun : (nodeBackward g m fun k => gr1 k + gr2 k)
          = fun k => nodeBackward g m gr1 k + nodeBackward g m gr2 k := by
        funext k
        exact nodeBackward_additive g m gr1 gr2 k
      rw [hfun]
      exact ih (nodeBackward g m gr1) (nodeBackward g m gr2) n

/-! ## The network layer: Neuron / Layer / MLP

Parameter nodes live in the same arena; a component owns the identities of
its parameter nodes.  `random.uniform(-1,1)` draws are embedded as a value
stream `rnd : ℕ → R` consumed left to right with a counter, which keeps the
construction deterministic while quantifying over every possible
initialization. -/

/-- A `Neuron` owns one weight node per input and one bias node. -/
structure Neuron where
  w : List ℕ
  b : ℕ
deriving DecidableEq, Repr

/-- `[Value(random.uniform(-1,1)) for _ in range(nin)]`: `nin` fresh leaf
nodes from successive stream draws, returning their identities in order. -/
def mkLeaves (g : Graph R) (rnd : ℕ → R) (k : ℕ) : ℕ → Graph R × List ℕ
  | 0 => (g, [])
  | n + 1 =>
      let p := Value.mk' g (rnd k)
      let q := mkLeaves p.1 rnd (k + 1) n
      (q.1, p.2 :: q.2)

/-- `Neuron.__init__`: `nin` weight leaves then one bias leaf.  Returns the
extended arena, the next stream position, and the neuron. -/
def Neuron.init (g : Graph R) (rnd : ℕ → R) (k nin : ℕ) : Graph R × ℕ × Neuron :=
  let pw := mkLeaves g rnd k nin
  let pb := Value.mk' pw.1 (rnd (k + nin))
  (pb.1, k + nin + 1, ⟨pw.2, pb.2⟩)

/-- `Neuron.__call__`: `act = sum((wi*xi for wi, xi in zip(self.w, x)), self.b)`
then `out = act.tanh()`.  `zip` silently truncates to the shorter of the two
sequences, and `sum` folds `+` from the left starting at the bias, building
one `mul` node then one `add` node per pair. -/
def dotStep [Field R] (p : Graph R × ℕ) (wx : ℕ × Arg R) : Graph R × ℕ :=
  let m := Value.mul p.1 wx.1 wx.2
  Value.add m.1 p.2 (.node m.2)

def Neuron.call [Field R] (expf : R → R) (g : Graph R) (nr : Neuron) (x : List (Arg R)) :
    Graph R × ℕ :=
  let dot := (nr.w.zip x).foldl dotStep (g, nr.b)
  Value.tanh expf dot.1 dot.2

/-- `Neuron.parameters`: `self.w + [self.b]`. -/
def Neuron.parameters (nr : Neuron) : List ℕ := nr.w ++ [nr.b]

/-- A `Layer` owns an ordered sequence of neurons. -/
structure Layer where
  neurons : List Neuron
deriving DecidableEq, Repr

/-- `Layer.__init__`: `nout` independent neurons of `nin` inputs each,
constructed in order. -/
def Layer.init (g : Graph R) (rnd : ℕ → R) (k nin : ℕ) : ℕ → Graph R × ℕ × Layer
  | 0 => (g, k, ⟨[]⟩)
  | n + 1 =>
      let p := Neuron.init g rnd k nin
      let q := Layer.init p.1 rnd p.2.1 nin n
      (q.1, q.2.1, ⟨p.2.2 :: q.2.2.neurons⟩)

/-- The evaluations `[n(x) for n in self.neurons]` in neuron order,
threading the arena left to right. -/
def callNeurons [Field R] (expf : R → R) (x : List (Arg R)) :
    Graph R → List Neuron → Graph R × List ℕ
  | g, [] => (g, [])
  | g, nr :: rest =>
      let p := Neuron.call expf g nr x
      let q := callNeurons expf x p.1 rest
      (q.1, p.2 :: q.2)

/-- The raw output list of a layer. -/
def Layer.callList [Field R] (expf : R → R) (g : Graph R) (l : Layer) (x : List (Arg R)) :
    Graph R × List ℕ :=
  callNeurons expf x g l.neurons

/-- `Layer.__call__`: `outs[0] if len(outs) == 1 else outs` — the degenerate
single-output layer returns the lone node directly. -/
def Layer.call [Field R] (expf : R → R) (g : Graph R) (l : Layer) (x : List (Arg R)) :
    Graph R × (ℕ ⊕ List ℕ) :=
  let p := Layer.callList expf g l x
  (p.1, if p.2.length = 1 then Sum.inl (p.2.getD 0 0) else Sum.inr p.2)

/-- `Layer.parameters`: concatenation of each neuron's parameters in order. -/
def Layer.parameters (l : Layer) : List ℕ :=
  l.neurons.flatMap Neuron.parameters

/-- An `MLP` owns an ordered sequence of layers. -/
structure MLP where
  layers : List Layer
deriving DecidableEq, Repr

/-- `MLP.__init__`: `sz = [nin] + nouts`, with layer `i` of shape
`Layer(sz[i], sz[i+1])`. -/
def MLP.init (g : Graph R) (rnd : ℕ → R) (k nin : ℕ) : List ℕ → Graph R × ℕ × MLP
  | [] => (g, k, ⟨[]⟩)
  | nout :: rest =>
      let p := Layer.init g rnd k nin nout
      let q := MLP.init p.1 rnd p.2.1 nout rest
      (q.1, q.2.1, ⟨p.2.2 :: q.2.2.layers⟩)

/-- The loop `for layer in self.layers: x = layer(x)` of `MLP.__call__`,
as a recursion over the remaining layers.  When an inner layer returned a
single node, the next layer's `zip` over it raises `TypeError` (a `Value`
is not iterable); otherwise the outputs feed the next layer as node
arguments. -/
def MLP.callAux [Field R] (expf : R → R) : List Layer → Graph R → List (Arg R) →
    Except PyErr (Graph R × (ℕ ⊕ List (Arg R)))
  | [], g, xs => .ok (g, .inr xs)
  | l :: rest, g, xs =>
      match hc : Layer.call expf g l xs with
      | (g2, .inl o) =>
          match rest with
          | [] => .ok (g2, .inl o)
          | _ :: _ => .error .typeError
      | (g2, .inr outs) => MLP.callAux expf rest g2 (outs.map Arg.node)

/-- `MLP.__call__`. -/
def MLP.call [Field R] (expf : R → R) (g : Graph R) (m : MLP) (x : List (Arg R)) :
    Except PyErr (Graph R × (ℕ ⊕ List (Arg R))) :=
  MLP.callAux expf m.layers g x

/-- `MLP.parameters`: concatenation across layers in order. -/
def MLP.parameters (m : MLP) : List ℕ :=
  m.layers.flatMap Layer.parameters

theorem mkLeaves_length (rnd : ℕ → R) : ∀ (n : ℕ) (g : Graph R) (k : ℕ),
    ((mkLeaves g rnd k n).2).length = n := by
  intro n
  induction n with
  | zero => intro g k; rfl
  | succ n ih =>
      intro g k
      simp only [mkLeaves, List.length_cons]
      rw [ih]

theorem Neuron.init_w_length (g : Graph R) (rnd : ℕ → R) (k nin : ℕ) :
    ((Neuron.init g rnd k nin).2.2).w.length = nin := by
  simp only [Neuron.init]
  exact mkLeaves_length rnd nin g k

theorem Layer.init_neurons_length (rnd : ℕ → R) (nin : ℕ) :
    ∀ (nout : ℕ) (g : Graph R) (k : ℕ),
      ((Layer.init g rnd k nin nout).2.2).neurons.length = nout := by
  intro nout
  induction nout with
  | zero => intro g k; rfl
  | succ n ih =>
      intro g k
      simp only [Layer.init, List.length_cons]
      rw [ih]

theorem Layer.init_w_lengths (rnd : ℕ → R) (nin : ℕ) :
    ∀ (nout : ℕ) (g : Graph R) (k : ℕ),
      ∀ nr ∈ ((Layer.init g rnd k nin nout).2.2).neurons, nr.w.length = nin := by
  intro nout
  induction nout with
  | zero => intro g k nr h; simp [Layer.init] at h
  | succ n ih =>
      intro g k nr h
      simp only [Layer.init, List.mem_cons] at h
      rcases h with rfl | h
      · exact Neuron.init_w_length g rnd k nin
      · exact ih _ _ nr h

theorem parameters_length_aux (nin : ℕ) :
    ∀ ns : List Neuron, (∀ nr ∈ ns, nr.w.length = nin) →
      (ns.flatMap Neuron.parameters).length = ns.length * (nin + 1) := by
  intro ns
  induction ns with
  | nil => intro _; simp
  | cons nr rest ih =>
      intro h
      simp only [List.flatMap_cons, List.length_append, List.length_cons]
      rw [ih (fun nr' h' => h nr' (by simp [h']))]
      have hw : nr.w.length = nin := h nr (by simp)
      simp [Neuron.parameters, hw]
      ring

theorem Layer.parameters_length (l : Layer) (nin : ℕ)
    (h : ∀ nr ∈ l.neurons, nr.w.length = nin) :
    l.parameters.length = l.neurons.length * (nin + 1) :=
  parameters_length_aux nin l.neurons h

theorem callNeurons_length [Field R] (expf : R → R) (x : List (Arg R)) :
    ∀ (ns : List Neuron) (g : Graph R), ((callNeurons expf x g ns).2).length = ns.length := by
  intro ns
  induction ns with
  | nil => intro g; rfl
  | cons nr rest ih =>
      intro g
      simp only [callNeurons, List.length_cons]
      rw [ih]

theorem Layer.callList_length [Field R] (expf : R → R) (g : Graph R) (l : Layer)
    (x : List (Arg R)) : ((Layer.callList expf g l x).2).length = l.neurons.length :=
  callNeurons_length expf x l.neurons g

theorem Layer.call_multi [Field R] (expf : R → R) (g : Graph R) (l : Layer)
    (x : List (Arg R)) (h : l.neurons.length ≠ 1) :
    Layer.call expf g l x
      = ((Layer.callList expf g l x).1, Sum.inr (Layer.callList expf g l x).2) := by
  simp only [Layer.call]
  rw [if_neg]
  rw [Layer.callList_length]
  exact h

theorem Layer.call_single [Field R] (expf : R → R) (g : Graph R) (l : Layer)
    (x : List (Arg R)) (h : l.neurons.length = 1) :
    Layer.call expf g l x
      = ((Layer.callList expf g l x).1,
          Sum.inl ((Layer.callList expf g l x).2.getD 0 0)) := by
  simp only [Layer.call]
  rw [if_pos]
  rw [Layer.callList_length]
  exact h

theorem MLP.callAux_cons_multi [Field R] (expf : R → R) (l : Layer) (rest : List Layer)
    (g : Graph R) (xs : List (Arg R)) (h : l.neurons.length ≠ 1) :
    MLP.callAux expf (l :: rest) g xs
      = MLP.callAux expf rest (Layer.callList expf g l xs).1
          ((Layer.callList expf g l xs).2.map Arg.node) := by
  simp only [MLP.callAux]
  rw [Layer.call_multi expf g l xs h]

theorem MLP.callAux_last_single [Field R] (expf : R → R) (l : Layer)
    (g : Graph R) (xs : List (Arg R)) (h : l.neurons.length = 1) :
    MLP.callAux expf [l] g xs
      = .ok ((Layer.callList expf g l xs).1,
             Sum.inl ((Layer.callList expf g l xs).2.getD 0 0)) := by
  simp only [MLP.callAux]
  rw [Layer.call_single expf g l xs h]

/-- C6: `MLP(3, [4, 4, 1])` evaluated on any 3-element input vector returns
a single Scalar Node — the degenerate single-output last layer returns its
sole output directly instead of a length-1 sequence — and its parameter
list has length `(3*4+4) + (4*4+4) + (4*1+1) = 41`, flattened in
layer-then-neuron-then-weights-then-bias order. -/
theorem claim_mlp_shape_341 [Field R] (expf : R → R) (g : Graph R) (rnd : ℕ → R) (k : ℕ)
    (x : List (Arg R)) (hx : x.length = 3) :
    (∃ gfin o, MLP.call expf (MLP.init g rnd k 3 [4, 4, 1]).1
        (MLP.init g rnd k 3 [4, 4, 1]).2.2 x = .ok (gfin, Sum.inl o)) ∧
    ((MLP.init g rnd k 3 [4, 4, 1]).2.2.parameters).length = 41 ∧
    (MLP.init g rnd k 3 [4, 4, 1]).2.2.parameters
      = (MLP.init g rnd k 3 [4, 4, 1]).2.2.layers.flatMap
          (fun l => l.neurons.flatMap (fun nr => nr.w ++ [nr.b])) := by
  refine ⟨?_, ?_, rfl⟩
  · simp only [MLP.call, MLP.init]
    rw [MLP.callAux_cons_multi expf _ _ _ _ (by rw [Layer.init_neurons_length]; omega)]
    rw [MLP.callAux_cons_multi expf _ _ _ _ (by rw [Layer.init_neurons_length]; omega)]
    rw [MLP.callAux_last_single expf _ _ _ (by rw [Layer.init_neurons_length])]
    exact ⟨_, _, rfl⟩
  · simp only [MLP.init, MLP.parameters, List.flatMap_cons, List.flatMap_nil,
      List.append_nil, List.length_append]
    rw [Layer.parameters_length _ 3 (Layer.init_w_lengths rnd 3 4 g k),
        Layer.init_neurons_length]
    rw [Layer.parameters_length _ 4 (Layer.init_w_lengths rnd 4 4 _ _),
        Layer.init_neurons_length]
    rw [Layer.parameters_length _ 4 (Layer.init_w_lengths rnd 4 1 _ _),
        Layer.init_neurons_length]

/-! ## Forward-value stability and the neuron dot product -/

theorem dataAt_append_left [Zero R] (g ext : Graph R) (i : ℕ) (h : i < g.length) :
    dataAt (g ++ ext) i = dataAt g i := by
  unfold dataAt
  rw [List.getD_append _ _ _ _ h]

theorem dataAt_last [Zero R] (g : Graph R) (v : Value R) :
    dataAt (g ++ [v]) g.length = v.data := by
  unfold dataAt
  rw [List.getD_append_right _ _ _ _ (le_refl _)]
  simp

theorem opAt_last [Zero R] (g : Graph R) (v : Value R) :
    opAt (g ++ [v]) g.length = v.op := by
  unfold opAt
  rw [List.getD_append_right _ _ _ _ (le_refl _)]
  simp

/-- Validity of a duck-typed argument against an arena: a node argument must
denote an existing node. -/
def ArgLt [Zero R] (g : Graph R) : Arg R → Prop
  | .node j => j < g.length
  | .num _ => True

instance [Zero R] (g : Graph R) : (a : Arg R) → Decidable (ArgLt g a)
  | .node j => inferInstanceAs (Decidable (j < g.length))
  | .num _ => inferInstanceAs (Decidable True)

theorem Arg.value_stable [Zero R] (g ext : Graph R) (a : Arg R) (h : ArgLt g a) :
    Arg.value (g ++ ext) a = Arg.value g a := by
  cases a with
  | node j => exact dataAt_append_left g ext j h
  | num c => rfl

theorem Value.mul_spec [Field R] (g : Graph R) (i : ℕ) (a : Arg R) (hi : i < g.length)
    (ha : ArgLt g a) :
    (∃ ext, (Value.mul g i a).1 = g ++ ext) ∧
    (Value.mul g i a).2 < (Value.mul g i a).1.length ∧
    dataAt (Value.mul g i a).1 (Value.mul g i a).2 = dataAt g i * Arg.value g a := by
  cases a with
  | node j =>
      refine ⟨⟨[⟨dataAt g i * dataAt g j, Op.mul i j⟩], rfl⟩, ?_, ?_⟩
      · simp [Value.mul, promote]
      · exact dataAt_last g _
  | num c =>
      simp only [Value.mul, promote, Value.mk']
      refine ⟨⟨_, by rw [List.append_assoc]⟩, by simp, ?_⟩
      rw [dataAt_last, dataAt_append_left g _ i hi, dataAt_last]
      rfl

theorem Value.add_spec [Field R] (g : Graph R) (i : ℕ) (a : Arg R) (hi : i < g.length)
    (ha : ArgLt g a) :
    (∃ ext, (Value.add g i a).1 = g ++ ext) ∧
    (Value.add g i a).2 < (Value.add g i a).1.length ∧
    dataAt (Value.add g i a).1 (Value.add g i a).2 = dataAt g i + Arg.value g a := by
  cases a with
  | node j =>
      refine ⟨⟨[⟨dataAt g i + dataAt g j, Op.add i j⟩], rfl⟩, ?_, ?_⟩
      · simp [Value.add, promote]
      · exact dataAt_last g _
  | num c =>
      simp only [Value.add, promote, Value.mk']
      refine ⟨⟨_, by rw [List.append_assoc]⟩, by simp, ?_⟩
      rw [dataAt_last, dataAt_append_left g _ i hi, dataAt_last]
      rfl

/-- The weighted-sum fold of `Neuron.__call__`: starting from the bias
accumulator, each pair appends one `mul` and one `add` node, and the final
accumulator's value is the start value plus the dot product of the pairs,
all pair values read against the original arena. -/
theorem dot_spec [Field R] (g0 : Graph R) :
    ∀ (pairs : List (ℕ × Arg R)) (g : Graph R) (acc : ℕ),
      (∃ ext, g = g0 ++ ext) →
      acc < g.length →
      (∀ p ∈ pairs, p.1 < g0.length ∧ ArgLt g0 p.2) →
      (∃ ext2, (pairs.foldl dotStep (g, acc)).1 = g ++ ext2) ∧
      (pairs.foldl dotStep (g, acc)).2 < (pairs.foldl dotStep (g, acc)).1.length ∧
      dataAt (pairs.foldl dotStep (g, acc)).1 (pairs.foldl dotStep (g, acc)).2
        = dataAt g acc
          + (pairs.map (fun wx => dataAt g0 wx.1 * Arg.value g0 wx.2)).sum := by
  intro pairs
  induction pairs with
  | nil =>
      intro g acc hext hacc hp
      exact ⟨⟨[], by simp⟩, hacc, by simp⟩
  | cons wx rest ih =>
      intro g acc hext hacc hp
      obtain ⟨ext, rfl⟩ := hext
      have hw : wx.1 < (g0 ++ ext).length := by
        have := (hp wx (by simp)).1
        simp only [List.length_append]
        omega
      have hax : ArgLt (g0 ++ ext) wx.2 := by
        have := (hp wx (by simp)).2
        cases hval : wx.2 with
        | node j =>
            rw [hval] at this
            simp only [ArgLt] at this ⊢
            simp only [List.length_append]
            omega
        | num c => trivial
      obtain ⟨⟨e1, he1⟩, hm2, hmv⟩ := Value.mul_spec (g0 ++ ext) wx.1 wx.2 hw hax
      set m := Value.mul (g0 ++ ext) wx.1 wx.2 with hm
      have haccm : acc < m.1.length := by
        rw [he1]
        simp only [List.length_append] at hacc ⊢
        omega
      have harg : ArgLt m.1 (Arg.node m.2) := hm2
      obtain ⟨⟨e2, he2⟩, ha2, hav⟩ := Value.add_spec m.1 acc (.node m.2) haccm harg
      set a := Value.add m.1 acc (.node m.2) with ha
      simp only [List.foldl_cons]
      have hstep : dotStep (g0 ++ ext, acc) wx = a := by
        rw [ha, hm]
        rfl
      rw [hstep]
      have hres := ih a.1 a.2
        ⟨ext ++ e1 ++ e2, by rw [he2, he1]; simp [List.append_assoc]⟩
        ha2
        (fun p hpm => hp p (by simp [hpm]))
      obtain ⟨⟨e3, he3⟩, hr2, hrv⟩ := hres
      refine ⟨⟨e1 ++ e2 ++ e3, ?_⟩, hr2, ?_⟩
      · rw [he3, he2, he1]
        simp [List.append_assoc]
      · rw [hrv]
        have hv1 : dataAt a.1 a.2 = dataAt (g0 ++ ext) acc
            + dataAt g0 wx.1 * Arg.value g0 wx.2 := by
          rw [hav]
          simp only [Arg.value]
          congr 1
          · rw [he1, dataAt_append_left _ _ _ hacc]
          · rw [hmv]
            congr 1
            · exact dataAt_append_left g0 ext wx.1 (hp wx (by simp)).1
            · exact Arg.value_stable g0 ext wx.2 (hp wx (by simp)).2
        rw [hv1]
        simp only [List.map_cons, List.sum_cons]
        ring

/-- The value a neuron evaluation produces: the tanh formula applied to
twice the biased dot product over exactly the zipped weight-input pairs. -/
theorem Neuron.call_value [Field R] (expf : R → R) (g : Graph R) (nr : Neuron)
    (x : List (Arg R)) (hb : nr.b < g.length)
    (hw : ∀ i ∈ nr.w, i < g.length) (hx : ∀ a ∈ x, ArgLt g a) :
    dataAt (Neuron.call expf g nr x).1 (Neuron.call expf g nr x).2
      = (expf (2 * (dataAt g nr.b
            + ((nr.w.zip x).map (fun wx => dataAt g wx.1 * Arg.value g wx.2)).sum)) - 1)
        / (expf (2 * (dataAt g nr.b
            + ((nr.w.zip x).map (fun wx => dataAt g wx.1 * Arg.value g wx.2)).sum)) + 1) := by
  have hpairs : ∀ p ∈ nr.w.zip x, p.1 < g.length ∧ ArgLt g p.2 := by
    intro p hp
    have := List.of_mem_zip hp
    exact ⟨hw p.1 this.1, hx p.2 this.2⟩
  obtain ⟨⟨e, he⟩, h2, hv⟩ := dot_spec g (nr.w.zip x) g nr.b ⟨[], by simp⟩ hb hpairs
  simp only [Neuron.call, Value.tanh]
  rw [dataAt_last, hv]

/-- A neuron's output node always records a value of the shape
`(exp s - 1) / (exp s + 1)` for some argument `s` (no assumption on the
arena or input needed: it is the value of the appended tanh node). -/
theorem Neuron.call_tanh_shape [Field R] (expf : R → R) (g : Graph R) (nr : Neuron)
    (x : List (Arg R)) :
    ∃ s : R, dataAt (Neuron.call expf g nr x).1 (Neuron.call expf g nr x).2
      = (expf s - 1) / (expf s + 1) := by
  simp only [Neuron.call, Value.tanh]
  exact ⟨_, dataAt_last _ _⟩

theorem tanh_formula_range (s : ℝ) :
    -1 < (Real.exp s - 1) / (Real.exp s + 1)
      ∧ (Real.exp s - 1) / (Real.exp s + 1) < 1 := by
  have he := Real.exp_pos s
  constructor
  · rw [lt_div_iff₀ (by linarith)]
    linarith
  · rw [div_lt_one (by linarith)]
    linarith

theorem zip_take [Zero R] : ∀ (l : List ℕ) (x : List (Arg R)),
    l.zip (x.take l.length) = l.zip x := by
  intro l
  induction l with
  | nil => intro x; simp
  | cons a l ih =>
      intro x
      cases x with
      | nil => simp
      | cons b x => simp [ih]

/-- `Neuron.__call__` performs no input-length check: extra inputs beyond
the weight count are never consumed (the zip truncates before anything is
promoted or any node is built). -/
theorem Neuron.call_take [Field R] (expf : R → R) (g : Graph R) (nr : Neuron)
    (x : List (Arg R)) :
    Neuron.call expf g nr x = Neuron.call expf g nr (x.take nr.w.length) := by
  simp only [Neuron.call]
  rw [zip_take]

/-! ## The adjoint recursion equals the sum over all paths -/

theorem foldr_append_map_sum [Field R] (w : List ℕ → R) :
    ∀ (l : List ℕ) (F : ℕ → List (List ℕ)),
      (((l.foldr (fun c acc => F c ++ acc) []).map w).sum)
        = (l.map (fun c => ((F c).map w).sum)).sum := by
  intro l F
  induction l with
  | nil => simp
  | cons c l ih => simp [ih]

theorem mem_foldr_append {p : List ℕ} :
    ∀ (l : List ℕ) (F : ℕ → List (List ℕ)),
      p ∈ l.foldr (fun c acc => F c ++ acc) [] → ∃ c ∈ l, p ∈ F c := by
  intro l F
  induction l with
  | nil => intro h; simp at h
  | cons c l ih =>
      intro h
      simp only [List.foldr_cons, List.mem_append] at h
      rcases h with h | h
      · exact ⟨c, by simp, h⟩
      · obtain ⟨c2, hc2, hp⟩ := ih h
        exact ⟨c2, by simp [hc2], hp⟩

theorem pathsD_head [Zero R] (g : Graph R) (v n : ℕ) (p : List ℕ)
    (hp : p ∈ pathsD g v n) : ∃ rest, p = v :: rest := by
  rw [pathsD] at hp
  by_cases hvn : v = n
  · rw [if_pos hvn] at hp
    simp at hp
    exact ⟨[], by simp [hp]⟩
  · rw [if_neg hvn] at hp
    obtain ⟨c, _, hpc⟩ := mem_foldr_append _ _ hp
    by_cases hc : c < v
    · rw [dif_pos hc] at hpc
      obtain ⟨q, _, rfl⟩ := List.mem_map.mp hpc
      exact ⟨q, rfl⟩
    · rw [dif_neg hc] at hpc
      simp at hpc

theorem foldr_append_eq_nil (l : List ℕ) (F : ℕ → List (List ℕ))
    (h : ∀ c ∈ l, F c = []) : l.foldr (fun c acc => F c ++ acc) [] = [] := by
  induction l with
  | nil => rfl
  | cons c cs ih =>
      simp only [List.foldr_cons]
      rw [h c (by simp), ih (fun x hx => h x (by simp [hx]))]
      rfl

theorem lt_length_of_mem_prev [Zero R] (g : Graph R) (v c : ℕ)
    (hc : c ∈ (opAt g v).prev) : v < g.length := by
  by_contra hcon
  rw [opAt_of_ge g v (by omega)] at hc
  simp [Op.prev] at hc

theorem pathsD_eq_nil_of_lt [Zero R] (g : Graph R) :
    ∀ v n, v < n → pathsD g v n = [] := by
  intro v
  induction v using Nat.strong_induction_on with
  | _ v IH =>
    intro n hvn
    rw [pathsD, if_neg (by omega)]
    apply foldr_append_eq_nil
    intro c _
    by_cases h : c < v
    · rw [dif_pos h, IH c h n (by omega)]
      rfl
    · rw [dif_neg h]

theorem pathsD_eq_nil_of_ge_length [Zero R] (g : Graph R) (hwf : WF g) (n : ℕ)
    (hn : g.length ≤ n) : ∀ v, v ≠ n → pathsD g v n = [] := by
  intro v
  induction v using Nat.strong_induction_on with
  | _ v IH =>
    intro hvn
    rw [pathsD, if_neg hvn]
    apply foldr_append_eq_nil
    intro c hc
    by_cases h : c < v
    · rw [dif_pos h]
      have hvlen : v < g.length := lt_length_of_mem_prev g v c hc
      have hclen : c < g.length := lt_of_lt_of_le (prev_lt g hwf v c hc) (le_of_lt hvlen)
      have hcn : c ≠ n := by omega
      rw [IH c h hcn]
      rfl
    · rw [dif_neg h]

theorem derivSpec_self [Field R] (g : Graph R) (v : ℕ) : derivSpec g v v = 1 := by
  rw [derivSpec, pathsD]
  simp [pathWeight]

theorem derivSpec_eq_zero_of_lt [Field R] (g : Graph R) (v n : ℕ) (h : v < n) :
    derivSpec g v n = 0 := by
  rw [derivSpec, pathsD_eq_nil_of_lt g v n h]
  rfl

/-- Unfolding of the path sum at a non-terminal source: peel the first edge. -/
theorem derivSpec_ne [Field R] (g : Graph R) (v n : ℕ) (h : v ≠ n) :
    derivSpec g v n = ((opAt g v).prev.map
      (fun c => if hc : c < v then localCoef g v c * derivSpec g c n else 0)).sum := by
  rw [derivSpec, pathsD, if_neg h, foldr_append_map_sum]
  congr 1
  apply List.map_congr_left
  intro c hc
  by_cases h2 : c < v
  · rw [dif_pos h2, dif_pos h2]
    rw [List.map_map]
    have hcong : ∀ p ∈ pathsD g c n,
        (pathWeight g ∘ (fun q => v :: q)) p = localCoef g v c * pathWeight g p := by
      intro p hp
      obtain ⟨rest, rfl⟩ := pathsD_head g c n p hp
      rfl
    rw [List.map_congr_left hcong, derivSpec]
    exact List.sum_map_mul_left _ _ _
  · rw [dif_neg h2, dif_neg h2]
    rfl

theorem list_sum_map_add [Field R] (l : List ℕ) (f h : ℕ → R) :
    (l.map (fun c => f c + h c)).sum = (l.map f).sum + (l.map h).sum := by
  induction l with
  | nil => simp
  | cons c cs ih => simp [ih]; ring

theorem list_sum_ite_eq_mem [Field R] (n : ℕ) (x : R) :
    ∀ l : List ℕ, l.Nodup →
      (l.map (fun c => if c = n then x else 0)).sum = if n ∈ l then x else 0 := by
  intro l
  induction l with
  | nil => intro _; simp
  | cons c cs ih =>
      intro hnd
      simp only [List.map_cons, List.sum_cons]
      rw [ih (List.nodup_cons.mp hnd).2]
      by_cases hcn : c = n
      · subst hcn
        rw [if_pos rfl, if_neg (List.nodup_cons.mp hnd).1, if_pos (List.mem_cons_self c cs)]
        ring
      · rw [if_neg hcn]
        by_cases hmem : n ∈ cs
        · rw [if_pos hmem, if_pos (by simp [hmem])]
          ring
        · rw [if_neg hmem, if_neg (by
            intro hh
            rcases List.mem_cons.mp hh with h1 | h1
            · exact hcn h1.symm
            · exact hmem h1)]
          ring

theorem Op.prev_nodup (o : Op) : o.prev.Nodup := by
  cases o with
  | leaf => exact List.nodup_nil
  | add a b =>
      simp only [Op.prev]
      by_cases hab : a = b
      · simp [hab]
      · simp [hab]
  | mul a b =>
      simp only [Op.prev]
      by_cases hab : a = b
      · simp [hab]
      · simp [hab]
  | pow a e => simp [Op.prev]
  | tanh a => simp [Op.prev]
  | exp a => simp [Op.prev]

theorem finset_sum_list_map_sum_swap [Field R] (s : Finset ℕ) (l : List ℕ)
    (F : ℕ → ℕ → R) :
    s.sum (fun m => (l.map (fun c => F m c)).sum)
      = (l.map (fun c => s.sum (fun m => F m c))).sum := by
  induction l with
  | nil => simp
  | cons c cs ih => simp [Finset.sum_add_distrib, ih]

/-- The path sum satisfies the consumer recursion of the adjoint: peeling
the last edge of every path instead of the first. -/
theorem derivSpec_consumer_rec [Field R] (g : Graph R) (hwf : WF g) :
    ∀ r n, n ≠ r →
      derivSpec g r n = (Finset.range g.length).sum (fun m =>
        if h : n < m ∧ m < g.length then localCoef g m n * derivSpec g r m else 0) := by
  intro r
  induction r using Nat.strong_induction_on with
  | _ r IH =>
    intro n hn
    rw [derivSpec_ne g r n (Ne.symm hn)]
    have hsplit : ∀ m ∈ Finset.range g.length,
        (if h : n < m ∧ m < g.length then localCoef g m n * derivSpec g r m else 0)
        = (if m = r then (if n < r ∧ r < g.length then localCoef g r n else 0) else 0)
          + (if h2 : ¬ m = r ∧ n < m ∧ m < g.length then
              localCoef g m n * derivSpec g r m else 0) := by
      intro m hm
      by_cases hmr : m = r
      · subst hmr
        by_cases hg : n < m ∧ m < g.length
        · rw [dif_pos hg, derivSpec_self, mul_one, if_pos rfl, if_pos hg,
            dif_neg (by tauto), add_zero]
        · rw [dif_neg hg, if_pos rfl, if_neg hg, dif_neg (by tauto), add_zero]
      · by_cases hg : n < m ∧ m < g.length
        · rw [dif_pos hg, if_neg hmr, dif_pos ⟨hmr, hg⟩, zero_add]
        · rw [dif_neg hg, if_neg hmr, dif_neg (by tauto), add_zero]
    rw [Finset.sum_congr rfl hsplit, Finset.sum_add_distrib]
    rw [Finset.sum_ite_eq' (Finset.range g.length) r
      (fun _ => if n < r ∧ r < g.length then localCoef g r n else 0)]
    have hexp : ∀ m ∈ Finset.range g.length,
        (if h2 : ¬ m = r ∧ n < m ∧ m < g.length then
            localCoef g m n * derivSpec g r m else 0)
        = ((opAt g r).prev.map (fun c =>
            if hc : c < r then
              localCoef g r c * (if h2 : ¬ m = r ∧ n < m ∧ m < g.length then
                localCoef g m n * derivSpec g c m else 0)
            else 0)).sum := by
      intro m hm
      by_cases h2 : ¬ m = r ∧ n < m ∧ m < g.length
      · rw [dif_pos h2]
        rw [derivSpec_ne g r m (fun he => h2.1 he.symm)]
        rw [← List.sum_map_mul_left]
        apply congrArg List.sum
        apply List.map_congr_left
        intro c hcm
        by_cases hc : c < r
        · rw [dif_pos hc, dif_pos hc, dif_pos h2]
          ring
        · rw [dif_neg hc, dif_neg hc, mul_zero]
      · rw [dif_neg h2]
        symm
        apply List.sum_eq_zero
        intro x hx
        rw [List.mem_map] at hx
        obtain ⟨c, hcm, rfl⟩ := hx
        by_cases hc : c < r
        · rw [dif_pos hc, dif_neg h2, mul_zero]
        · rw [dif_neg hc]
    rw [Finset.sum_congr rfl hexp, finset_sum_list_map_sum_swap]
    have hinner : ∀ c, c < r → (Finset.range g.length).sum (fun m =>
        if h2 : ¬ m = r ∧ n < m ∧ m < g.length then
          localCoef g m n * derivSpec g c m else 0)
        = (if c = n then 0 else derivSpec g c n) := by
      intro c hcr
      have hstep1 : ∀ m ∈ Finset.range g.length,
          (if h2 : ¬ m = r ∧ n < m ∧ m < g.length then
              localCoef g m n * derivSpec g c m else 0)
          = (if h3 : n < m ∧ m < g.length then
              localCoef g m n * derivSpec g c m else 0) := by
        intro m hm
        by_cases hmr : m = r
        · subst hmr
          rw [dif_neg (by tauto)]
          by_cases hg : n < m ∧ m < g.length
          · rw [dif_pos hg, derivSpec_eq_zero_of_lt g c m hcr, mul_zero]
          · rw [dif_neg hg]
        · by_cases hg : n < m ∧ m < g.length
          · rw [dif_pos (show ¬ m = r ∧ n < m ∧ m < g.length from ⟨hmr, hg⟩), dif_pos hg]
          · rw [dif_neg (by tauto), dif_neg hg]
      rw [Finset.sum_congr rfl hstep1]
      by_cases hcn : c = n
      · subst hcn
        rw [if_pos rfl]
        apply Finset.sum_eq_zero
        intro m hm
        by_cases hg : c < m ∧ m < g.length
        · rw [dif_pos hg, derivSpec_eq_zero_of_lt g c m hg.1, mul_zero]
        · rw [dif_neg hg]
      · rw [if_neg hcn]
        exact (IH c hcr n (fun he => hcn he.symm)).symm
    have hper : ∀ c ∈ (opAt g r).prev,
        ((Finset.range g.length).sum (fun m =>
          if hc : c < r then
            localCoef g r c * (if h2 : ¬ m = r ∧ n < m ∧ m < g.length then
              localCoef g m n * derivSpec g c m else 0)
          else 0))
        = (if hc : c < r then
            localCoef g r c * (if c = n then 0 else derivSpec g c n) else 0) := by
      intro c hcm
      by_cases hc : c < r
      · simp only [dif_pos hc]
        rw [← Finset.mul_sum, hinner c hc]
      · simp only [dif_neg hc]
        exact Finset.sum_const_zero
    rw [List.map_congr_left hper]
    have hlhs : ∀ c ∈ (opAt g r).prev,
        (if hc : c < r then localCoef g r c * derivSpec g c n else 0)
        = (if c = n then (if n < r then localCoef g r n else 0) else 0)
          + (if hc : c < r then
              localCoef g r c * (if c = n then 0 else derivSpec g c n) else 0) := by
      intro c hcm
      by_cases hcn : c = n
      · subst hcn
        by_cases hc : c < r
        · rw [dif_pos hc, dif_pos hc, if_pos rfl, if_pos rfl, if_pos hc,
            derivSpec_self, mul_zero, add_zero, mul_one]
        · rw [dif_neg hc, dif_neg hc, if_pos rfl, if_neg hc, add_zero]
      · rw [if_neg hcn]
        by_cases hc : c < r
        · rw [dif_pos hc, dif_pos hc, if_neg hcn, zero_add]
        · rw [dif_neg hc, dif_neg hc, zero_add]
    rw [List.map_congr_left hlhs, list_sum_map_add]
    rw [list_sum_ite_eq_mem n (if n < r then localCoef g r n else 0)
      (opAt g r).prev (Op.prev_nodup _)]
    have hfinal : (if n ∈ (opAt g r).prev then (if n < r then localCoef g r n else 0) else 0)
        = (if r ∈ Finset.range g.length then
            (if n < r ∧ r < g.length then localCoef g r n else 0) else 0) := by
      by_cases hmem : n ∈ (opAt g r).prev
      · have hnr : n < r := prev_lt g hwf r n hmem
        have hrlen : r < g.length := lt_length_of_mem_prev g r n hmem
        rw [if_pos hmem, if_pos hnr, if_pos (Finset.mem_range.mpr hrlen), if_pos ⟨hnr, hrlen⟩]
      · rw [if_neg hmem]
        by_cases hr : r ∈ Finset.range g.length
        · rw [if_pos hr]
          by_cases hg : n < r ∧ r < g.length
          · rw [if_pos hg, localCoef_eq_zero_of_not_mem_prev g r n hmem]
          · rw [if_neg hg]
        · rw [if_neg hr]
    rw [hfinal]

theorem derivSpec_eq_zero_of_ge_length [Field R] (g : Graph R) (hwf : WF g)
    (v n : ℕ) (hn : g.length ≤ n) (hvn : v ≠ n) : derivSpec g v n = 0 := by
  rw [derivSpec, pathsD_eq_nil_of_ge_length g hwf n hn v hvn]
  rfl

/-- The adjoint recursion computes exactly the sum over all paths of the
products of local derivatives. -/
theorem deriv_eq_derivSpec [Field R] (g : Graph R) (hwf : WF g) (root : ℕ) :
    ∀ k n, g.length - n ≤ k → deriv g root n = derivSpec g root n := by
  intro k
  induction k with
  | zero =>
      intro n hk
      by_cases hn : n = root
      · subst hn
        rw [deriv, if_pos rfl, derivSpec_self]
      · rw [deriv, if_neg hn]
        rw [derivSpec_eq_zero_of_ge_length g hwf root n (by omega) (fun he => hn he.symm)]
        apply Finset.sum_eq_zero
        intro m hm
        rw [dif_neg]
        omega
  | succ k ih =>
      intro n hk
      by_cases hn : n = root
      · subst hn
        rw [deriv, if_pos rfl, derivSpec_self]
      · rw [deriv, if_neg hn, derivSpec_consumer_rec g hwf root n hn]
        apply Finset.sum_congr rfl
        intro m hm
        by_cases hg : n < m ∧ m < g.length
        · rw [dif_pos hg, dif_pos hg, ih m (by omega)]
        · rw [dif_neg hg, dif_neg hg]

/-- Full backward-pass correctness against the path-sum specification. -/
theorem backward_eq_derivSpec [Field R] (g : Graph R) (hwf : WF g) (root : ℕ)
    (hroot : root < g.length) (gr0 : ℕ → R) (h0 : ∀ n, n ≠ root → gr0 n = 0) :
    ∀ n, Reaches g root n → backward g root gr0 n = derivSpec g root n := by
  intro n hn
  rw [backward_eq_deriv g hwf root hroot gr0 h0 n hn]
  exact deriv_eq_derivSpec g hwf root g.length n (by omega)

/-! ## The constructors build only well-formed arenas

These lemmas justify quantifying theorems over `WF` arenas: `WF` holds of
the empty arena and is preserved by every operator, so it characterizes
exactly the computation graphs the forward pass can build. -/

theorem opAt_append_left [Zero R] (g ext : Graph R) (i : ℕ) (h : i < g.length) :
    opAt (g ++ ext) i = opAt g i := by
  unfold opAt
  rw [List.getD_append _ _ _ _ h]

theorem WF_nil [Zero R] : WF ([] : Graph R) := by
  intro i hi
  simp at hi

theorem WF_append_node [Zero R] (g : Graph R) (hwf : WF g) (v : Value R)
    (hv : ∀ c ∈ v.op.prev, c < g.length) : WF (g ++ [v]) := by
  intro i hi c hc
  simp only [List.mem_range, List.length_append, List.length_cons, List.length_nil] at hi
  by_cases h : i < g.length
  · rw [opAt_append_left g [v] i h] at hc
    exact hwf i (List.mem_range.mpr h) c hc
  · have hieq : i = g.length := by omega
    subst hieq
    rw [opAt_last g v] at hc
    exact hv c hc

theorem WF_mk' [Zero R] (g : Graph R) (hwf : WF g) (x : R) :
    WF (Value.mk' g x).1 ∧ (Value.mk' g x).2 < (Value.mk' g x).1.length := by
  constructor
  · exact WF_append_node g hwf _ (by simp [Op.prev])
  · simp [Value.mk']

theorem WF_add [Field R] (g : Graph R) (hwf : WF g) (i : ℕ) (hi : i < g.length)
    (other : Arg R) (ho : ArgLt g other) :
    WF (Value.add g i other).1 ∧ (Value.add g i other).2 < (Value.add g i other).1.length := by
  cases other with
  | node j =>
      simp only [ArgLt] at ho
      constructor
      · simp only [Value.add, promote]
        apply WF_append_node g hwf
        intro c hc
        simp only [Op.prev] at hc
        split at hc
        · simp at hc
          omega
        · simp at hc
          rcases hc with rfl | rfl <;> omega
      · simp [Value.add, promote]
  | num x =>
      have h1 : WF (g ++ [⟨x, Op.leaf⟩]) := WF_append_node g hwf _ (by simp [Op.prev])
      constructor
      · simp only [Value.add, promote, Value.mk']
        apply WF_append_node _ h1
        intro c hc
        simp only [Op.prev] at hc
        simp only [List.length_append, List.length_cons, List.length_nil]
        split at hc
        · simp at hc
          omega
        · simp at hc
          rcases hc with rfl | rfl <;> omega
      · simp [Value.add, promote, Value.mk']

theorem WF_mul [Field R] (g : Graph R) (hwf : WF g) (i : ℕ) (hi : i < g.length)
    (other : Arg R) (ho : ArgLt g other) :
    WF (Value.mul g i other).1 ∧ (Value.mul g i other).2 < (Value.mul g i other).1.length := by
  cases other with
  | node j =>
      simp only [ArgLt] at ho
      constructor
      · simp only [Value.mul, promote]
        apply WF_append_node g hwf
        intro c hc
        simp only [Op.prev] at hc
        split at hc
        · simp at hc
          omega
        · simp at hc
          rcases hc with rfl | rfl <;> omega
      · simp [Value.mul, promote]
  | num x =>
      have h1 : WF (g ++ [⟨x, Op.leaf⟩]) := WF_append_node g hwf _ (by simp [Op.prev])
      constructor
      · simp only [Value.mul, promote, Value.mk']
        apply WF_append_node _ h1
        intro c hc
        simp only [Op.prev] at hc
        simp only [List.length_append, List.length_cons, List.length_nil]
        split at hc
        · simp at hc
          omega
        · simp at hc
          rcases hc with rfl | rfl <;> omega
      · simp [Value.mul, promote, Value.mk']

theorem WF_pow [Field R] [DecidableEq R] (g : Graph R) (hwf : WF g) (i : ℕ)
    (hi : i < g.length) (e : ℤ) (p : Graph R × ℕ)
    (hp : Value.pow g i (.num e) = .ok p) : WF p.1 ∧ p.2 < p.1.length := by
  by_cases h : dataAt g i = 0 ∧ e < 0
  · exfalso
    have herr : Value.pow g i (.num e) = .error .zeroDivisionError := by
      simp only [Value.pow, pyPow]
      rw [if_pos h]
      rfl
    rw [herr] at hp
    exact Except.noConfusion hp
  · have hok : Value.pow g i (.num e)
        = .ok (g ++ [⟨dataAt g i ^ e, Op.pow i e⟩], g.length) := by
      simp only [Value.pow, pyPow]
      rw [if_neg h]
      rfl
    rw [hok] at hp
    injection hp with h2
    subst h2
    constructor
    · apply WF_append_node g hwf
      intro c hc
      simp only [Op.prev] at hc
      simp at hc
      omega
    · simp

theorem WF_tanh [Field R] (expf : R → R) (g : Graph R) (hwf : WF g) (i : ℕ)
    (hi : i < g.length) :
    WF (Value.tanh expf g i).1 ∧ (Value.tanh expf g i).2 < (Value.tanh expf g i).1.length := by
  constructor
  · apply WF_append_node g hwf
    intro c hc
    simp only [Op.prev] at hc
    simp at hc
    omega
  · simp [Value.tanh]

theorem WF_exp [Zero R] (expf : R → R) (g : Graph R) (hwf : WF g) (i : ℕ)
    (hi : i < g.length) :
    WF (Value.exp expf g i).1 ∧ (Value.exp expf g i).2 < (Value.exp expf g i).1.length := by
  constructor
  · apply WF_append_node g hwf
    intro c hc
    simp only [Op.prev] at hc
    simp at hc
    omega
  · simp [Value.exp]

/-! ## The claims -/

/-- C2: the ordering computed by `backward`'s depth-first traversal is a
valid topological order: it has no duplicate node (each distinct node, by
identity, appears exactly once), and at every occurrence split
`topo = A ++ n :: B` every operand of `n` lies in `A`, i.e. appears
strictly earlier in the order. -/
theorem claim_build_topo_topological_order [Zero R] (g : Graph R) (hwf : WF g)
    (root : ℕ) :
    (build_topo g root ⟨[], []⟩).topo.Nodup
      ∧ SplitClosed g (build_topo g root ⟨[], []⟩).topo := by
  have hpre : Pre g root ⟨[], []⟩ :=
    ⟨List.nodup_nil, SplitClosed.nil g, by simp, by simp⟩
  obtain ⟨_, p2, p3, _⟩ := build_topo_post g hwf root ⟨[], []⟩ hpre
  exact ⟨p2, p3⟩

theorem claim_build_topo_topological_order_witness :
    WF [⟨(3 : ℚ), Op.leaf⟩, ⟨(9 : ℚ), Op.mul 0 0⟩]
      ∧ ((build_topo [⟨(3 : ℚ), Op.leaf⟩, ⟨(9 : ℚ), Op.mul 0 0⟩] 1 ⟨[], []⟩).topo.Nodup
        ∧ SplitClosed [⟨(3 : ℚ), Op.leaf⟩, ⟨(9 : ℚ), Op.mul 0 0⟩]
            (build_topo [⟨(3 : ℚ), Op.leaf⟩, ⟨(9 : ℚ), Op.mul 0 0⟩] 1 ⟨[], []⟩).topo) :=
  ⟨by decide, claim_build_topo_topological_order _ (by decide) 1⟩

/-- C3: fan-out accumulation with a repeated operand.  For a fresh node `a`
holding `x` (gradient `0.0` at creation), building `c = a * a` and running
`backward(c)` from the all-zero gradient state leaves `a.grad = 2 * x`,
both incoming edges being accumulated even though `_prev = set((a, a))`
de-duplicates the operand set to a single element. -/
theorem claim_mul_self_fanout [Field R] (x : R) :
    backward
      (Value.mul (Value.mk' ([] : Graph R) x).1 (Value.mk' ([] : Graph R) x).2
        (.node (Value.mk' ([] : Graph R) x).2)).1
      (Value.mul (Value.mk' ([] : Graph R) x).1 (Value.mk' ([] : Graph R) x).2
        (.node (Value.mk' ([] : Graph R) x).2)).2
      zeroGrads
      (Value.mk' ([] : Graph R) x).2
    = 2 * x := by
  show backward [⟨x, Op.leaf⟩, ⟨x * x, Op.mul 0 0⟩] 1 zeroGrads 0 = 2 * x
  have hwf : WF [⟨x, Op.leaf⟩, ⟨x * x, Op.mul 0 0⟩] := by
    intro i hi c hc
    simp only [List.length_cons, List.length_nil, List.mem_range] at hi
    interval_cases i
    · simp [opAt, Op.prev] at hc
    · simp [opAt, Op.prev] at hc
      omega
  have hreach : Reaches [⟨x, Op.leaf⟩, ⟨x * x, Op.mul 0 0⟩] 1 0 :=
    Relation.ReflTransGen.single (by simp [opAt, Op.prev])
  rw [backward_eq_deriv _ hwf 1 (by simp) zeroGrads (fun n _ => rfl) 0 hreach]
  rw [deriv]
  rw [if_neg (by omega)]
  rw [show (([⟨x, Op.leaf⟩, ⟨x * x, Op.mul 0 0⟩] : Graph R)).length = 2 from rfl]
  rw [Finset.sum_range_succ, Finset.sum_range_succ, Finset.sum_range_zero]
  rw [dif_neg (by omega), dif_pos (by omega)]
  rw [deriv_root]
  simp only [localCoef, opAt, dataAt]
  norm_num
  ring

/-- C1: for every acyclic computation graph (well-formed arena), if every
non-root gradient is exactly `0` when `backward(root)` is invoked, then upon
completion every node reachable backward from the root holds exactly the
partial derivative of the root's value with respect to that node's value
under the multivariable chain rule: the sum, over all directed paths from
the root to the node, of the products of the local partial derivatives
along each path. -/
theorem claim_backward_chain_rule [Field R] (g : Graph R) (hwf : WF g) (root : ℕ)
    (hroot : root < g.length) (gr0 : ℕ → R) (h0 : ∀ n, n ≠ root → gr0 n = 0) :
    ∀ n, Reaches g root n →
      backward g root gr0 n = ((pathsD g root n).map (pathWeight g)).sum :=
  backward_eq_derivSpec g hwf root hroot gr0 h0

theorem claim_backward_chain_rule_witness :
    WF [⟨(3 : ℚ), Op.leaf⟩, ⟨(9 : ℚ), Op.mul 0 0⟩]
      ∧ 1 < ([⟨(3 : ℚ), Op.leaf⟩, ⟨(9 : ℚ), Op.mul 0 0⟩] : Graph ℚ).length
      ∧ backward [⟨(3 : ℚ), Op.leaf⟩, ⟨(9 : ℚ), Op.mul 0 0⟩] 1 zeroGrads 0
          = ((pathsD [⟨(3 : ℚ), Op.leaf⟩, ⟨(9 : ℚ), Op.mul 0 0⟩] 1 0).map
              (pathWeight [⟨(3 : ℚ), Op.leaf⟩, ⟨(9 : ℚ), Op.mul 0 0⟩])).sum :=
  ⟨by decide, by decide,
    claim_backward_chain_rule [⟨(3 : ℚ), Op.leaf⟩, ⟨(9 : ℚ), Op.mul 0 0⟩]
      (by decide) 1 (by decide) zeroGrads (fun n _ => rfl) 0
      (Relation.ReflTransGen.single (by decide))⟩

/-- C4 counterexample: the class defines no `__rsub__`, so evaluating
`2 - a` for a node `a` (here holding `3`) dispatches to a missing reflected
method and raises `TypeError` instead of returning a node: the reflected
form of subtraction is not supported. -/
theorem claim_reflected_ops_counterexample :
    numOpValue [⟨(3 : ℚ), Op.leaf⟩] BinOp.sub 2 0 = .error .typeError := by
  rfl

/-- C4 (amended): among the four operations, addition and multiplication
support both the primary form `a op x` and the reflected form `x op a`
(the latter defined by delegating to the primary, via `__radd__` and
`__rmul__`), each producing a node holding the mathematical result;
subtraction and division support only the primary form (division only for
a nonzero plain divisor), and the reflected forms `x - a` and `x / a`
raise `TypeError` because no `__rsub__`/`__rtruediv__` is defined. -/
theorem claim_reflected_ops_amended [Field R] [DecidableEq R] (g : Graph R) (i : ℕ)
    (x : R) (hi : i < g.length) :
    dataAt (Value.add g i (.num x)).1 (Value.add g i (.num x)).2 = dataAt g i + x ∧
    dataAt (Value.mul g i (.num x)).1 (Value.mul g i (.num x)).2 = dataAt g i * x ∧
    dataAt (Value.sub g i (.num x)).1 (Value.sub g i (.num x)).2 = dataAt g i - x ∧
    (x ≠ 0 → ∃ p, Value.truediv g i (.num x) = .ok p ∧ dataAt p.1 p.2 = dataAt g i / x) ∧
    Value.radd g x i = Value.add g i (.num x) ∧
    Value.rmul g x i = Value.mul g i (.num x) ∧
    numOpValue g BinOp.add x i = .ok (Value.add g i (.num x)) ∧
    numOpValue g BinOp.mul x i = .ok (Value.mul g i (.num x)) ∧
    numOpValue g BinOp.sub x i = .error .typeError ∧
    numOpValue g BinOp.div x i = .error .typeError := by
  refine ⟨?_, ?_, ?_, ?_, rfl, rfl, rfl, rfl, rfl, rfl⟩
  · have h := (Value.add_spec g i (.num x) hi trivial).2.2
    simpa [Arg.value] using h
  · have h := (Value.mul_spec g i (.num x) hi trivial).2.2
    simpa [Arg.value] using h
  · have h := (Value.add_spec g i (.num (-x)) hi trivial).2.2
    simp only [Value.sub]
    rw [h]
    simp [Arg.value]
    ring
  · intro hx
    simp only [Value.truediv]
    rw [if_neg hx]
    refine ⟨_, rfl, ?_⟩
    have h := (Value.mul_spec g i (.num (x ^ (-1 : ℤ))) hi trivial).2.2
    rw [h]
    simp [Arg.value]
    exact (div_eq_mul_inv _ _).symm

theorem claim_reflected_ops_amended_witness :
    0 < ([⟨(3 : ℚ), Op.leaf⟩] : Graph ℚ).length
      ∧ (dataAt (Value.add [⟨(3 : ℚ), Op.leaf⟩] 0 (.num 2)).1
            (Value.add [⟨(3 : ℚ), Op.leaf⟩] 0 (.num 2)).2 = dataAt [⟨(3 : ℚ), Op.leaf⟩] 0 + 2 ∧
        dataAt (Value.mul [⟨(3 : ℚ), Op.leaf⟩] 0 (.num 2)).1
            (Value.mul [⟨(3 : ℚ), Op.leaf⟩] 0 (.num 2)).2 = dataAt [⟨(3 : ℚ), Op.leaf⟩] 0 * 2 ∧
        dataAt (Value.sub [⟨(3 : ℚ), Op.leaf⟩] 0 (.num 2)).1
            (Value.sub [⟨(3 : ℚ), Op.leaf⟩] 0 (.num 2)).2 = dataAt [⟨(3 : ℚ), Op.leaf⟩] 0 - 2 ∧
        ((2 : ℚ) ≠ 0 → ∃ p, Value.truediv [⟨(3 : ℚ), Op.leaf⟩] 0 (.num 2) = .ok p ∧
            dataAt p.1 p.2 = dataAt [⟨(3 : ℚ), Op.leaf⟩] 0 / 2) ∧
        Value.radd [⟨(3 : ℚ), Op.leaf⟩] 2 0 = Value.add [⟨(3 : ℚ), Op.leaf⟩] 0 (.num 2) ∧
        Value.rmul [⟨(3 : ℚ), Op.leaf⟩] 2 0 = Value.mul [⟨(3 : ℚ), Op.leaf⟩] 0 (.num 2) ∧
        numOpValue [⟨(3 : ℚ), Op.leaf⟩] BinOp.add 2 0
          = .ok (Value.add [⟨(3 : ℚ), Op.leaf⟩] 0 (.num 2)) ∧
        numOpValue [⟨(3 : ℚ), Op.leaf⟩] BinOp.mul 2 0
          = .ok (Value.mul [⟨(3 : ℚ), Op.leaf⟩] 0 (.num 2)) ∧
        numOpValue [⟨(3 : ℚ), Op.leaf⟩] BinOp.sub 2 0 = .error .typeError ∧
        numOpValue [⟨(3 : ℚ), Op.leaf⟩] BinOp.div 2 0 = .error .typeError) :=
  ⟨by decide, claim_reflected_ops_amended [⟨(3 : ℚ), Op.leaf⟩] 0 2 (by decide)⟩

/-- C5 counterexample: a plain numeric exponent does not always succeed —
`Value(0.0) ** -1` passes the `assert` but the forward computation
`self.data ** other` raises `ZeroDivisionError` (zero cannot be raised to a
negative power), so no node is returned. -/
theorem claim_pow_counterexample :
    Value.pow [⟨(0 : ℚ), Op.leaf⟩] 0 (.num (-1)) = .error .zeroDivisionError := by
  rfl

/-- C5 (amended): `power` with a Scalar-Node-typed exponent fails fast with
an immediate `AssertionError` before constructing any node; with a plain
numeric exponent it succeeds — except when the base value is `0` and the
exponent negative, where the forward computation raises
`ZeroDivisionError` — and on success appends a node whose value is
`a.value ** e` and whose stored backward rule adds
`e * a.value^(e-1) * out.grad` onto the operand's gradient. -/
theorem claim_pow_contract [Field R] [DecidableEq R] (g : Graph R) (i : ℕ)
    (hi : i < g.length) :
    (∀ j, Value.pow g i (.node j) = .error .assertionError) ∧
    (∀ e : ℤ, ¬(dataAt g i = 0 ∧ e < 0) →
      Value.pow g i (.num e)
          = .ok (g ++ [⟨dataAt g i ^ e, Op.pow i e⟩], g.length) ∧
      (∀ gr : ℕ → R,
        nodeBackward (g ++ [⟨dataAt g i ^ e, Op.pow i e⟩]) g.length gr
          = bump gr i ((e : R) * dataAt g i ^ (e - 1) * gr g.length))) := by
  refine ⟨fun j => rfl, fun e he => ⟨?_, ?_⟩⟩
  · simp only [Value.pow, pyPow]
    rw [if_neg he]
    rfl
  · intro gr
    have hop : opAt (g ++ [⟨dataAt g i ^ e, Op.pow i e⟩]) g.length = Op.pow i e :=
      opAt_last g _
    funext n
    simp only [nodeBackward, hop]
    rw [dataAt_append_left g _ i hi]

theorem claim_pow_contract_witness :
    0 < ([⟨(2 : ℚ), Op.leaf⟩] : Graph ℚ).length
      ∧ ((∀ j, Value.pow [⟨(2 : ℚ), Op.leaf⟩] 0 (.node j) = .error .assertionError) ∧
        (∀ e : ℤ, ¬(dataAt [⟨(2 : ℚ), Op.leaf⟩] 0 = 0 ∧ e < 0) →
          Value.pow [⟨(2 : ℚ), Op.leaf⟩] 0 (.num e)
              = .ok ([⟨(2 : ℚ), Op.leaf⟩] ++ [⟨dataAt [⟨(2 : ℚ), Op.leaf⟩] 0 ^ e, Op.pow 0 e⟩],
                  ([⟨(2 : ℚ), Op.leaf⟩] : Graph ℚ).length) ∧
          (∀ gr : ℕ → ℚ,
            nodeBackward ([⟨(2 : ℚ), Op.leaf⟩] ++ [⟨dataAt [⟨(2 : ℚ), Op.leaf⟩] 0 ^ e, Op.pow 0 e⟩])
                ([⟨(2 : ℚ), Op.leaf⟩] : Graph ℚ).length gr
              = bump gr 0 ((e : ℚ) * dataAt [⟨(2 : ℚ), Op.leaf⟩] 0 ^ (e - 1)
                  * gr ([⟨(2 : ℚ), Op.leaf⟩] : Graph ℚ).length)))) :=
  ⟨by decide, claim_pow_contract [⟨(2 : ℚ), Op.leaf⟩] 0 (by decide)⟩

/-- C9: division by a zero divisor never returns a node.  Whether the
divisor is a plain number `0` or a node whose value is `0`, `__truediv__`
computes `self * other**-1`, and the `**-1` raises an uncaught
`ZeroDivisionError` during the forward computation. -/
theorem claim_div_by_zero [Field R] [DecidableEq R] (g : Graph R) (i : ℕ)
    (other : Arg R) (h : Arg.value g other = 0) :
    Value.truediv g i other = .error .zeroDivisionError := by
  cases other with
  | num x =>
      simp only [Arg.value] at h
      simp only [Value.truediv]
      rw [if_pos h]
  | node j =>
      simp only [Arg.value] at h
      simp only [Value.truediv, Value.pow, pyPow]
      rw [if_pos ⟨h, by omega⟩]
      rfl

theorem claim_div_by_zero_witness :
    Arg.value [⟨(3 : ℚ), Op.leaf⟩, ⟨(0 : ℚ), Op.leaf⟩] (Arg.node 1) = 0
      ∧ Value.truediv [⟨(3 : ℚ), Op.leaf⟩, ⟨(0 : ℚ), Op.leaf⟩] 0 (Arg.node 1)
          = .error .zeroDivisionError :=
  ⟨by decide, claim_div_by_zero _ 0 (Arg.node 1) (by decide)⟩

theorem claim_mlp_shape_341_witness :
    ([Arg.num (1 : ℚ), Arg.num 2, Arg.num 3].length = 3)
      ∧ ((∃ gfin o, MLP.call id (MLP.init ([] : Graph ℚ) (fun _ => 0) 0 3 [4, 4, 1]).1
            (MLP.init ([] : Graph ℚ) (fun _ => 0) 0 3 [4, 4, 1]).2.2
            [Arg.num (1 : ℚ), Arg.num 2, Arg.num 3] = .ok (gfin, Sum.inl o)) ∧
        ((MLP.init ([] : Graph ℚ) (fun _ => 0) 0 3 [4, 4, 1]).2.2.parameters).length = 41 ∧
        (MLP.init ([] : Graph ℚ) (fun _ => 0) 0 3 [4, 4, 1]).2.2.parameters
          = (MLP.init ([] : Graph ℚ) (fun _ => 0) 0 3 [4, 4, 1]).2.2.layers.flatMap
              (fun l => l.neurons.flatMap (fun nr => nr.w ++ [nr.b]))) :=
  ⟨rfl, claim_mlp_shape_341 id ([] : Graph ℚ) (fun _ => 0) 0
    [Arg.num (1 : ℚ), Arg.num 2, Arg.num 3] rfl⟩

/-- C7: for every neuron and every input vector of matching length over the
reals, the evaluated output value lies strictly inside `(-1, 1)`: the
output node records `tanh` of the weighted sum plus bias, computed as
`(exp(2s) - 1) / (exp(2s) + 1)`, which is strictly between `-1` and `1`
for every finite real argument. -/
theorem claim_neuron_output_range (g : Graph ℝ) (nr : Neuron) (x : List (Arg ℝ))
    (hlen : x.length = nr.w.length) :
    -1 < dataAt (Neuron.call Real.exp g nr x).1 (Neuron.call Real.exp g nr x).2
      ∧ dataAt (Neuron.call Real.exp g nr x).1 (Neuron.call Real.exp g nr x).2 < 1 := by
  obtain ⟨s, hs⟩ := Neuron.call_tanh_shape Real.exp g nr x
  rw [hs]
  exact tanh_formula_range s

theorem claim_neuron_output_range_witness :
    ([Arg.num (1 : ℝ)].length = (Neuron.mk [0] 1).w.length)
      ∧ (-1 < dataAt (Neuron.call Real.exp [⟨(1 : ℝ), Op.leaf⟩, ⟨(0 : ℝ), Op.leaf⟩]
            (Neuron.mk [0] 1) [Arg.num 1]).1
            (Neuron.call Real.exp [⟨(1 : ℝ), Op.leaf⟩, ⟨(0 : ℝ), Op.leaf⟩]
              (Neuron.mk [0] 1) [Arg.num 1]).2
        ∧ dataAt (Neuron.call Real.exp [⟨(1 : ℝ), Op.leaf⟩, ⟨(0 : ℝ), Op.leaf⟩]
            (Neuron.mk [0] 1) [Arg.num 1]).1
            (Neuron.call Real.exp [⟨(1 : ℝ), Op.leaf⟩, ⟨(0 : ℝ), Op.leaf⟩]
              (Neuron.mk [0] 1) [Arg.num 1]).2 < 1) :=
  ⟨rfl, claim_neuron_output_range [⟨(1 : ℝ), Op.leaf⟩, ⟨(0 : ℝ), Op.leaf⟩]
    (Neuron.mk [0] 1) [Arg.num 1] rfl⟩

/-- C8: the backward pass performs no gradient zeroing.  Its writes are one
overwriting seed of `1.0` into the root (so the result never depends on the
root's prior gradient) and the `+=` accumulations of the local rules (so
the replay is additive in the entry state — contributions superpose and
nothing is reset); the gradient of every node not reachable backward from
the root is returned unchanged.  Zeroing non-root gradients between calls
is therefore entirely the caller's responsibility. -/
theorem claim_backward_write_discipline [Field R] (g : Graph R) (hwf : WF g)
    (root : ℕ) (gr0 : ℕ → R) :
    (∀ n, ¬Reaches g root n → backward g root gr0 n = gr0 n) ∧
    (∀ gr1, (∀ n, n ≠ root → gr0 n = gr1 n) →
      backward g root gr0 = backward g root gr1) ∧
    (∀ (topo : List ℕ) (gr1 gr2 : ℕ → R) (n : ℕ),
      replay g topo (fun k => gr1 k + gr2 k) n
        = replay g topo gr1 n + replay g topo gr2 n) :=
  ⟨backward_frame g hwf root gr0,
   fun gr1 h => backward_discards_root g root gr0 gr1 h,
   fun topo gr1 gr2 n => replay_additive g topo gr1 gr2 n⟩

theorem claim_backward_write_discipline_witness :
    WF [⟨(3 : ℚ), Op.leaf⟩, ⟨(9 : ℚ), Op.mul 0 0⟩]
      ∧ ((∀ n, ¬Reaches [⟨(3 : ℚ), Op.leaf⟩, ⟨(9 : ℚ), Op.mul 0 0⟩] 1 n →
            backward [⟨(3 : ℚ), Op.leaf⟩, ⟨(9 : ℚ), Op.mul 0 0⟩] 1 zeroGrads n = zeroGrads n) ∧
        (∀ gr1, (∀ n, n ≠ 1 → zeroGrads n = gr1 n) →
          backward [⟨(3 : ℚ), Op.leaf⟩, ⟨(9 : ℚ), Op.mul 0 0⟩] 1 zeroGrads
            = backward [⟨(3 : ℚ), Op.leaf⟩, ⟨(9 : ℚ), Op.mul 0 0⟩] 1 gr1) ∧
        (∀ (topo : List ℕ) (gr1 gr2 : ℕ → ℚ) (n : ℕ),
          replay [⟨(3 : ℚ), Op.leaf⟩, ⟨(9 : ℚ), Op.mul 0 0⟩] topo (fun k => gr1 k + gr2 k) n
            = replay [⟨(3 : ℚ), Op.leaf⟩, ⟨(9 : ℚ), Op.mul 0 0⟩] topo gr1 n
              + replay [⟨(3 : ℚ), Op.leaf⟩, ⟨(9 : ℚ), Op.mul 0 0⟩] topo gr2 n)) :=
  ⟨by decide, claim_backward_write_discipline _ (by decide) 1 zeroGrads⟩

/-- C10: neuron evaluation performs no input-length check.  Evaluation
always succeeds, is unchanged by dropping inputs beyond the weight count
(extra inputs are never promoted, never read, and create no node), pairs
exactly `min(len(w), len(x))` weight-input products (extra weights are
likewise ignored), and the output value is `tanh` of the bias plus the dot
product over exactly those pairs. -/
theorem claim_neuron_no_length_check [Field R] (expf : R → R) (g : Graph R)
    (nr : Neuron) (x : List (Arg R)) (hb : nr.b < g.length)
    (hw : ∀ i ∈ nr.w, i < g.length) (hx : ∀ a ∈ x, ArgLt g a) :
    Neuron.call expf g nr x = Neuron.call expf g nr (x.take nr.w.length) ∧
    (nr.w.zip x).length = min nr.w.length x.length ∧
    dataAt (Neuron.call expf g nr x).1 (Neuron.call expf g nr x).2
      = (expf (2 * (dataAt g nr.b
            + ((nr.w.zip x).map (fun wx => dataAt g wx.1 * Arg.value g wx.2)).sum)) - 1)
        / (expf (2 * (dataAt g nr.b
            + ((nr.w.zip x).map (fun wx => dataAt g wx.1 * Arg.value g wx.2)).sum)) + 1) :=
  ⟨Neuron.call_take expf g nr x, List.length_zip nr.w x,
   Neuron.call_value expf g nr x hb hw hx⟩

theorem claim_neuron_no_length_check_witness :
    ((Neuron.mk [0] 1).b < ([⟨(3 : ℚ), Op.leaf⟩, ⟨(4 : ℚ), Op.leaf⟩] : Graph ℚ).length)
      ∧ (∀ i ∈ (Neuron.mk [0] 1).w, i < ([⟨(3 : ℚ), Op.leaf⟩, ⟨(4 : ℚ), Op.leaf⟩] : Graph ℚ).length)
      ∧ (∀ a ∈ [Arg.num (2 : ℚ), Arg.num 5],
          ArgLt [⟨(3 : ℚ), Op.leaf⟩, ⟨(4 : ℚ), Op.leaf⟩] a)
      ∧ (Neuron.call id [⟨(3 : ℚ), Op.leaf⟩, ⟨(4 : ℚ), Op.leaf⟩] (Neuron.mk [0] 1)
            [Arg.num 2, Arg.num 5]
          = Neuron.call id [⟨(3 : ℚ), Op.leaf⟩, ⟨(4 : ℚ), Op.leaf⟩] (Neuron.mk [0] 1)
              ([Arg.num 2, Arg.num 5].take (Neuron.mk [0] 1).w.length) ∧
        ((Neuron.mk [0] 1).w.zip [Arg.num (2 : ℚ), Arg.num 5]).length
          = min (Neuron.mk [0] 1).w.length [Arg.num (2 : ℚ), Arg.num 5].length ∧
        dataAt (Neuron.call id [⟨(3 : ℚ), Op.leaf⟩, ⟨(4 : ℚ), Op.leaf⟩] (Neuron.mk [0] 1)
              [Arg.num 2, Arg.num 5]).1
            (Neuron.call id [⟨(3 : ℚ), Op.leaf⟩, ⟨(4 : ℚ), Op.leaf⟩] (Neuron.mk [0] 1)
              [Arg.num 2, Arg.num 5]).2
          = (id (2 * (dataAt [⟨(3 : ℚ), Op.leaf⟩, ⟨(4 : ℚ), Op.leaf⟩] (Neuron.mk [0] 1).b
                + (((Neuron.mk [0] 1).w.zip [Arg.num (2 : ℚ), Arg.num 5]).map
                    (fun wx => dataAt [⟨(3 : ℚ), Op.leaf⟩, ⟨(4 : ℚ), Op.leaf⟩] wx.1
                      * Arg.value [⟨(3 : ℚ), Op.leaf⟩, ⟨(4 : ℚ), Op.leaf⟩] wx.2)).sum)) - 1)
            / (id (2 * (dataAt [⟨(3 : ℚ), Op.leaf⟩, ⟨(4 : ℚ), Op.leaf⟩] (Neuron.mk [0] 1).b
                + (((Neuron.mk [0] 1).w.zip [Arg.num (2 : ℚ), Arg.num 5]).map
                    (fun wx => dataAt [⟨(3 : ℚ), Op.leaf⟩, ⟨(4 : ℚ), Op.leaf⟩] wx.1
                      * Arg.value [⟨(3 : ℚ), Op.leaf⟩, ⟨(4 : ℚ), Op.leaf⟩] wx.2)).sum)) + 1)) :=
  ⟨by decide, by decide, by decide,
    claim_neuron_no_length_check id [⟨(3 : ℚ), Op.leaf⟩, ⟨(4 : ℚ), Op.leaf⟩]
      (Neuron.mk [0] 1) [Arg.num 2, Arg.num 5] (by decide) (by decide) (by decide)⟩

end Micrograd
